import Mathlib

/-!
Shallow embedding of the type-inference engine of `src/type_inference.ts`
(module `TypeInference`): the type model (`TypeArray` / `TypeVariable` /
`TypeConstant`), the scheme-resolution work done by the `TypeArray`
constructor, the variable-renaming utilities, the `Unifier`, and the
stack-effect algebra (`composeFunctions`, `composeFunctionChain`,
`applyFunction`).

Representation choices, each justified at its definition site:
* JS `Type` objects become the pure tree `Ty`.  Reference equality between
  distinct heap nodes is `false`; the `t1 == t2` shortcut of `unifyTypes`
  is therefore dropped (two separately built nodes are never `==` in JS,
  and none of the executions studied here compare a node with itself).
* The mutable scheme bookkeeping performed by the `TypeArray` constructor
  only ever compares variable NAMES, so it is reproduced at name level by
  `annotate` (see the faithfulness discussion there).
* The `Unifier` record sharing (several variable names pointing to one
  `TypeUnifier` object whose `unifier` field is mutated in place) is
  modelled by a name-to-record-id table plus a record-id-to-type table.
* `unifyTypes` has no occurs check and can diverge in JS, so its
  embedding takes fuel; `getUnifiedType` always terminates and is defined
  by well-founded recursion.
-/

namespace TypeInference

/-- The type model: `TypeVariable` (a name), `TypeConstant` (a name) and
`TypeArray` (an ordered list of child types).  `Type` has no further
subclasses in the source. -/
inductive Ty where
  | tVar : String → Ty
  | tConst : String → Ty
  | tArr : List Ty → Ty
  deriving Repr

mutual

/-- `typeVars` of a node: every variable name referenced somewhere in the
type, in pre-order leaf order and with duplicates, exactly as the
`TypeArray` constructor accumulates `this.typeVars` by concatenating the
children's `typeVars` (a `TypeVariable` contributes itself, a
`TypeConstant` nothing). -/
def varsOf : Ty → List String
  | .tVar n => [n]
  | .tConst _ => []
  | .tArr l => varsOfList l

/-- `typeVars` of a list of children, concatenated in order. -/
def varsOfList : List Ty → List String
  | [] => []
  | t :: ts => varsOf t ++ varsOfList ts

end

mutual

/-- `renameVars(t, names)`: rebuild the tree with every variable name sent
through the renaming function.  (`renameVars` first `clone`s and then
mutates the fresh copy in place; the net effect on the value is this pure
map.) -/
def mapVars (f : String → String) : Ty → Ty
  | .tVar n => .tVar (f n)
  | .tConst n => .tConst n
  | .tArr l => .tArr (mapVarsList f l)

/-- `mapVars` over a list of children. -/
def mapVarsList (f : String → String) : List Ty → List Ty
  | [] => []
  | t :: ts => mapVars f t :: mapVarsList f ts

end

mutual

/-- `clone(t)`: the structural deep copy.  On pure trees a deep copy is
the tree itself; the freshness of the copied heap nodes has no name-level
observable. -/
def clone : Ty → Ty
  | .tVar n => .tVar n
  | .tConst n => .tConst n
  | .tArr l => .tArr (cloneList l)

/-- `clone` over a list of children. -/
def cloneList : List Ty → List Ty
  | [] => []
  | t :: ts => clone t :: cloneList ts

end

/-- `typeArray(types)` helper. -/
def typeArray (l : List Ty) : Ty := .tArr l

/-- `typeConstant(name)` helper. -/
def typeConstant (n : String) : Ty := .tConst n

/-- `typeVar(name)` helper. -/
def typeVar (n : String) : Ty := .tVar n

/-- `functionType(input, output) = typeArray([input, '->', output])`. -/
def functionType (i o : Ty) : Ty := .tArr [i, .tConst "->", o]

/-- `recursiveType(depth) = typeArray(['rec', depth.toString()])`. -/
def recursiveType (depth : Nat) : Ty :=
  .tArr [.tConst "rec", .tConst (Nat.repr depth)]

/-- `idFunction()`: a function type from a fresh variable to itself; the
source uses the variable name `_` for it. -/
def idFunction : Ty := functionType (.tVar "_") (.tVar "_")

/-- `quotation(x)`: `row -> (x row)` over a fresh row variable named `_`. -/
def quotation (x : Ty) : Ty :=
  functionType (.tVar "_") (.tArr [x, .tVar "_"])

/-- `generateFreshNames(t, id)`: every variable name `n` becomes
`n + "$" + id`. -/
def generateFreshNames (t : Ty) (id : Nat) : Ty :=
  mapVars (fun n => n ++ "$" ++ Nat.repr id) t

/-- First-occurrence deduplication, the order in which
`normalizeVarNames` assigns fresh numbers and in which `Object.keys`
lists the scheme-variable names collected in `typeSchemeToString`:
fold the list left to right, appending each name not seen before. -/
def dedupAux : List String → List String → List String
  | acc, [] => acc
  | acc, x :: xs => dedupAux (if x ∈ acc then acc else acc ++ [x]) xs

/-- First occurrences, in order, of the names of a list (the insertion
order of a JS object used as a set). -/
def dedupFirst (l : List String) : List String := dedupAux [] l

/-- Position of the first occurrence of `x` (the list length if absent). -/
def idxOf (x : String) : List String → Nat
  | [] => 0
  | y :: ys => if y = x then 0 else idxOf x ys + 1

/-- The renaming map built by `normalizeVarNames` from the pre-order
sequence of variable occurrences: the `k`-th distinct name becomes
`"t" ++ k`. -/
def canonOf (seq : List String) (x : String) : String :=
  "t" ++ Nat.repr (idxOf x (dedupFirst seq))

/-- `normalizeVarNames(t)`: rename the variables to `t0, t1, ...` in
first-occurrence order (`descendantTypes` traverses pre-order, so the
occurrence sequence is `varsOf t`). -/
def normalizeVarNames (t : Ty) : Ty :=
  mapVars (canonOf (varsOf t)) t

/-! ### Scheme resolution (the `TypeArray` constructor)

The constructor mutates, through shared `TypeVariable` objects, the
`scheme` field of every variable of the subtree and the
`typeVarDeclarations` lists of the already-constructed inner arrays.  All
of its tests (`_isTypeVarUsedElsewhere`, the `filter` inside
`_reassignVarScheme`) compare names only, so for a tree whose nodes are
freshly allocated (every tree whose rendering the claims mention arises
from `clone` or from constructor calls, with fresh nodes) the resulting
decoration of each array node is a function of the name-labelled tree
alone.  `ATy` is the decorated tree and `annotate` recomputes the
constructor's effect bottom-up. -/

/-- A type tree whose array nodes carry their `typeVarDeclarations`
(as a list of variable names, in insertion order). -/
inductive ATy where
  | aVar : String → ATy
  | aConst : String → ATy
  | aArr : List ATy → List String → ATy
  deriving Repr

mutual

/-- `typeVars` of a decorated node (names, pre-order, duplicates kept). -/
def varsA : ATy → List String
  | .aVar n => [n]
  | .aConst _ => []
  | .aArr l _ => varsAList l

/-- `typeVars` of a decorated child list. -/
def varsAList : List ATy → List String
  | [] => []
  | t :: ts => varsA t ++ varsAList ts

end

mutual

/-- Remove the name `x` from the `typeVarDeclarations` of every node of
the tree: when `_reassignAllVarsToScheme(x, N)` runs, every occurrence of
`x` under `N` is re-owned, and `_reassignVarScheme` deletes `x` (by name)
from each occurrence's previous scheme, which is a node of the subtree
of `N`. -/
def stripName (x : String) : ATy → ATy
  | .aVar n => .aVar n
  | .aConst n => .aConst n
  | .aArr l d => .aArr (stripNameList x l) (d.filter (fun y => y ≠ x))

/-- `stripName` over a child list. -/
def stripNameList (x : String) : List ATy → List ATy
  | [] => []
  | t :: ts => stripName x t :: stripNameList x ts

end

/-- `_reassignAllVarsToScheme(x, root)`: delete `x` from every scheme of
the subtree, then record `x` as declared at the root. -/
def reassignRoot (x : String) : ATy → ATy
  | .aVar n => .aVar n
  | .aConst n => .aConst n
  | .aArr l d =>
      .aArr (stripNameList x l) ((d.filter (fun y => y ≠ x)) ++ [x])

/-- The scan of `_isTypeVarUsedElsewhere(this, x, i)`: walk the children
keeping a position counter `j`, true when `x` occurs in the `typeVars`
of a child at a position other than `i`. -/
def usedElsewhereGo (x : String) (i : Nat) : Nat → List ATy → Bool
  | _, [] => false
  | j, c :: rest =>
    (decide (j ≠ i) && decide (x ∈ varsA c)) || usedElsewhereGo x i (j + 1) rest

/-- `_isTypeVarUsedElsewhere(this, x, i)`: does `x` occur in the
`typeVars` of a child other than child `i`? -/
def usedElsewhere (cs : List ATy) (x : String) (i : Nat) : Bool :=
  usedElsewhereGo x i 0 cs

/-- The constructor loop over child positions, linearised into the
sequence of `_reassignAllVarsToScheme` calls it issues: a `TypeVariable`
child contributes its name; a `TypeArray` child contributes each of its
`typeVars` (in order, duplicates kept) that also occurs in a sibling; a
constant contributes nothing.  `cs` stays the full child list (the
`usedElsewhere` test scans all siblings) while the recursion walks the
suffix with the position counter `i`. -/
def scheduleGo (cs : List ATy) : Nat → List ATy → List String
  | _, [] => []
  | i, c :: rest =>
    (match c with
     | .aVar x => [x]
     | .aConst _ => []
     | .aArr _ _ => (varsA c).filter fun y => usedElsewhere cs y i)
    ++ scheduleGo cs (i + 1) rest

/-- The full reassignment schedule of the constructor. -/
def schedule (cs : List ATy) : List String := scheduleGo cs 0 cs

/-- The `TypeArray` constructor over already-constructed children:
start with no declarations and perform the scheduled reassignments in
order. -/
def mkArr (cs : List ATy) : ATy :=
  (schedule cs).foldl (fun a x => reassignRoot x a) (.aArr cs [])

mutual

/-- Construct the decorated tree bottom-up, exactly as nested
`new TypeArray(...)` calls construct inner arrays before outer ones. -/
def annotate : Ty → ATy
  | .tVar n => .aVar n
  | .tConst n => .aConst n
  | .tArr l => mkArr (annotateList l)

/-- `annotate` over a child list. -/
def annotateList : List Ty → List ATy
  | [] => []
  | t :: ts => annotate t :: annotateList ts

end

/-- `typeSchemeToString`: deduplicated declaration names (`Object.keys`
keeps first-insertion order) rendered as `!v1!v2....`, or the empty
string when there are none. -/
def schemeStr (d : List String) : String :=
  let r := dedupFirst d
  if r.isEmpty then "" else "!" ++ String.intercalate "!" r ++ "."

mutual

/-- `toString` of a decorated node: a variable or constant prints its
name, an array prints its scheme prefix followed by the children joined
with spaces inside parentheses. -/
def renderA : ATy → String
  | .aVar n => n
  | .aConst n => n
  | .aArr l d =>
      schemeStr d ++ "(" ++ String.intercalate " " (renderAList l) ++ ")"

/-- `renderA` over a child list. -/
def renderAList : List ATy → List String
  | [] => []
  | t :: ts => renderA t :: renderAList ts

end

/-- The rendered form of a freshly constructed tree: decorate it the way
the constructors would, then print. -/
def render (t : Ty) : String := renderA (annotate t)

/-- `areTypesSame(t1, t2)`: compare the rendered normalized forms. -/
def areTypesSame (t1 t2 : Ty) : Bool :=
  render (normalizeVarNames t1) == render (normalizeVarNames t2)

/-! ### The `Unifier`

`unifiers` maps variable names to shared `TypeUnifier` records; mutating
a record's `unifier` field is visible through every name mapped to it.
The embedding splits this into `assign` (name to record id) and `recs`
(record id to the record's current `unifier` type); `next` supplies fresh
record ids. -/

/-- The `Unifier` state. -/
structure UState where
  assign : List (String × Nat)
  recs : List (Nat × Ty)
  next : Nat
  deriving Repr

/-- The freshly constructed `Unifier`: an empty table. -/
def emptyU : UState := ⟨[], [], 0⟩

/-- Property lookup in the `unifiers` object (at most one entry per
name). -/
def alookup (l : List (String × Nat)) (x : String) : Option Nat :=
  match l with
  | [] => none
  | p :: ps => if p.1 = x then some p.2 else alookup ps x

/-- The `unifier` field of record `rid`.  Every id stored in `assign`
has a record (the operations below maintain this), so the default is
unreachable. -/
def recsGetD (s : UState) (rid : Nat) : Ty :=
  match s.recs.lookup rid with
  | some t => t
  | none => .tConst "unreachable"

/-- Overwrite the `unifier` field of record `rid` (the in-place
`u.unifier = ...` assignment). -/
def recsSet (s : UState) (rid : Nat) (t : Ty) : UState :=
  { s with recs := s.recs.map fun p => if p.1 = rid then (rid, t) else p }

/-- `_getOrCreateUnifier`: return the existing record id for the name, or
allocate a record whose `unifier` starts as the variable itself. -/
def getOrCreate (s : UState) (x : String) : Nat × UState :=
  match alookup s.assign x with
  | some rid => (rid, s)
  | none =>
      (s.next,
        { assign := s.assign ++ [(x, s.next)],
          recs := s.recs ++ [(s.next, .tVar x)],
          next := s.next + 1 })

/-- `_updateVariableUnifiers(varName, u)`: every name whose record's
current `unifier` is the bare variable `varName` is repointed to record
`uid`. -/
def updateVarUnifiers (s : UState) (varName : String) (uid : Nat) : UState :=
  { s with
    assign := s.assign.map fun p =>
      match recsGetD s p.2 with
      | .tVar w => if w = varName then (p.1, uid) else p
      | _ => p }

/-- The ascending scan of `previousVars` in `getUnifiedType`: index of the
first occurrence, if any. -/
def firstIdx (v : String) : List String → Option Nat
  | [] => none
  | x :: xs => if x = v then some 0 else (firstIdx v xs).map (· + 1)

/-- Number of substitution entries whose name is not yet on the
`previousVars` chain: the quantity that shrinks whenever
`getUnifiedType` expands a variable. -/
def notInChain (l : List (String × Nat)) (prev : List String) : Nat :=
  (l.filter fun p => decide (p.1 ∉ prev)).length

theorem alookup_mem {l : List (String × Nat)} {x : String} {rid : Nat}
    (h : alookup l x = some rid) : x ∈ l.map Prod.fst := by
  induction l with
  | nil => simp [alookup] at h
  | cons p ps ih =>
    by_cases hp : p.1 = x
    · simp [hp]
    · simp only [alookup, hp, if_false] at h
      simp [ih h]

theorem length_filter_mono {a : Type} {p q : a → Bool} (l : List a)
    (h : ∀ x, p x = true → q x = true) :
    (l.filter p).length ≤ (l.filter q).length := by
  induction l with
  | nil => exact Nat.le_refl _
  | cons x l ih =>
    rw [List.filter_cons, List.filter_cons]
    by_cases hp : p x = true
    · rw [if_pos hp, if_pos (h x hp), List.length_cons, List.length_cons]
      exact Nat.succ_le_succ ih
    · rw [if_neg hp]
      by_cases hq : q x = true
      · rw [if_pos hq, List.length_cons]
        exact Nat.le_succ_of_le ih
      · rw [if_neg hq]
        exact ih

theorem notInChain_cons_le (l : List (String × Nat)) (v : String)
    (prev : List String) : notInChain l (v :: prev) ≤ notInChain l prev := by
  unfold notInChain
  refine length_filter_mono l fun x hx => ?_
  simp only [decide_eq_true_eq] at hx ⊢
  exact fun hm => hx (List.mem_cons_of_mem _ hm)

theorem notInChain_cons_lt {l : List (String × Nat)} {v : String}
    {prev : List String} (hmem : v ∈ l.map Prod.fst) (hnot : v ∉ prev) :
    notInChain l (v :: prev) < notInChain l prev := by
  induction l with
  | nil => simp at hmem
  | cons p ps ih =>
    simp only [List.map_cons, List.mem_cons] at hmem
    unfold notInChain
    rw [List.filter_cons, List.filter_cons]
    by_cases hpv : p.1 = v
    · have h1 : ¬ (decide (p.1 ∉ v :: prev) = true) := by simp [hpv]
      have h2 : decide (p.1 ∉ prev) = true := by simp [hpv, hnot]
      rw [if_neg h1, if_pos h2, List.length_cons]
      have := notInChain_cons_le ps v prev
      unfold notInChain at this
      omega
    · have hmem2 : v ∈ ps.map Prod.fst := by
        rcases hmem with h | h
        · exact absurd h.symm hpv
        · exact h
      have hlt := ih hmem2
      unfold notInChain at hlt
      by_cases hin : p.1 ∈ prev
      · have h1 : ¬ (decide (p.1 ∉ v :: prev) = true) := by
          simp [List.mem_cons_of_mem _ hin]
        have h2 : ¬ (decide (p.1 ∉ prev) = true) := by simp [hin]
        rw [if_neg h1, if_neg h2]
        exact hlt
      · have h1 : decide (p.1 ∉ v :: prev) = true := by
          simp only [decide_eq_true_eq, List.mem_cons, not_or]
          exact ⟨hpv, hin⟩
        have h2 : decide (p.1 ∉ prev) = true := by simp [hin]
        rw [if_pos h1, if_pos h2, List.length_cons, List.length_cons]
        omega

theorem firstIdx_none_not_mem {v : String} {prev : List String}
    (h : firstIdx v prev = none) : v ∉ prev := by
  induction prev with
  | nil => simp
  | cons x xs ih =>
    by_cases hx : x = v
    · simp [firstIdx, hx] at h
    · have h2 : firstIdx v xs = none := by
        have h3 : (firstIdx v xs).map (· + 1) = none := by
          simpa [firstIdx, hx] using h
        exact Option.map_eq_none'.mp h3
      intro hmem
      rcases List.mem_cons.mp hmem with h4 | h4
      · exact hx h4.symm
      · exact ih h2 h4

mutual

/-- `getUnifiedType(expr, previousVars)`: replace every variable by its
unified version.  A constant is returned as-is; a variable already on the
`previousVars` chain marks a recursive type and becomes
`recursiveType(i)` at its chain position `i`; an unbound variable is
returned; a variable bound to a variable or constant resolves to that
record content; a variable bound to an array resolves the array with the
variable prepended to the chain; an array resolves child-wise.

Termination, which is what claim C3 asserts, is proved by the
lexicographic measure below: expanding a bound variable consumes one
substitution entry that was not yet on the chain, and walking into an
array shrinks the expression. -/
def getUnifiedType (s : UState) : Ty → List String → Ty
  | .tConst n, _ => .tConst n
  | .tVar v, prev =>
    match h1 : firstIdx v prev with
    | some i => recursiveType i
    | none =>
      match h2 : alookup s.assign v with
      | none => .tVar v
      | some rid =>
        match recsGetD s rid with
        | .tVar w => .tVar w
        | .tConst c => .tConst c
        | .tArr l => getUnifiedType s (.tArr l) (v :: prev)
  | .tArr l, prev => .tArr (getUnifiedTypeList s l prev)
termination_by t prev => (notInChain s.assign prev, sizeOf t)
decreasing_by
  · exact Prod.Lex.left _ _
      (notInChain_cons_lt (alookup_mem h2) (firstIdx_none_not_mem h1))
  · apply Prod.Lex.right
    simp <;> omega

/-- `getUnifiedType` mapped over the children of an array. -/
def getUnifiedTypeList (s : UState) : List Ty → List String → List Ty
  | [], _ => []
  | t :: ts, prev => getUnifiedType s t prev :: getUnifiedTypeList s ts prev
termination_by l prev => (notInChain s.assign prev, sizeOf l)
decreasing_by
  · apply Prod.Lex.right
    simp <;> omega
  · apply Prod.Lex.right
    simp <;> omega

end

/-- The error outcomes.  `cantUnifyConsts`, `cantUnifyMixed` and
`sizeMismatch` are the three `UnificationError` throw sites of the
`Unifier` (the two "Can't unify: ..." messages and "Cannot unify
differently sized lists"); `missing` is "Missing type expression";
`invalidType` carries the message of an `InvalidTypeError` throw site
("Expected a function type ...").  `outOfFuel` is an artifact of the
fueled embedding: the JS recursion has no fuel and can diverge, so a
fuel-exhausted run corresponds to no JS behaviour at all. -/
inductive Err where
  | cantUnifyConsts : String → String → Err
  | cantUnifyMixed : Ty → Ty → Err
  | sizeMismatch : List Ty → List Ty → Err
  | missing : Err
  | invalidType : String → Err
  | outOfFuel : Err

/-- `_chooseBestUnifier(t1, t2, depth)`, parameterised by the recursive
unification call it may make: two variables keep the first, a variable
against a non-variable yields the non-variable, two non-variables are
unified recursively at `depth + 1`. -/
def chooseBestWith (recur : UState → Ty → Ty → Nat → Except Err (Ty × UState))
    (s : UState) (t1 t2 : Ty) (d : Nat) : Except Err (Ty × UState) :=
  match t1, t2 with
  | .tVar a, .tVar _ => .ok (.tVar a, s)
  | .tVar _, _ => .ok (t2, s)
  | _, .tVar _ => .ok (t1, s)
  | _, _ => recur s t1 t2 (d + 1)

/-- `_updateUnifier(a, t, depth)`: fetch or create the record of `a`,
choose the best unifier between the record's current content (read
before the recursive call) and `t`, store it back into the record
(overwriting whatever nested calls left there, as the JS assignment
`u.unifier = ...` does), repoint every name still bound to the bare
variable `a`, and if `t` is a variable create its record and repoint its
name too.  Returns the stored type. -/
def updateUnifierWith
    (recur : UState → Ty → Ty → Nat → Except Err (Ty × UState))
    (s : UState) (a : String) (t : Ty) (d : Nat) :
    Except Err (Ty × UState) :=
  let (uid, s1) := getOrCreate s a
  match chooseBestWith recur s1 (recsGetD s1 uid) t d with
  | .error e => .error e
  | .ok (best, s2) =>
    let s3 := recsSet s2 uid best
    let s4 := updateVarUnifiers s3 a uid
    let s5 :=
      match t with
      | .tVar b => updateVarUnifiers (getOrCreate s4 b).2 b uid
      | _ => s4
    .ok (best, s5)

/-- The element loop of `_unifyLists`, parameterised by the unification
step: unify the lists position by position, threading the state, and
rebuild the result list.  The mismatched-length case is unreachable from
`unifyTypes` (the length check precedes the call); it maps to the
"Missing type expression" error that an out-of-range element access
triggers in the JS code. -/
def zipWithState (f : UState → Ty → Ty → Except Err (Ty × UState)) :
    UState → List Ty → List Ty → Except Err (List Ty × UState)
  | s, [], [] => .ok ([], s)
  | s, x :: xs, y :: ys =>
    match f s x y with
    | .error e => .error e
    | .ok (t, s2) =>
      match zipWithState f s2 xs ys with
      | .error e => .error e
      | .ok (ts, s3) => .ok (t :: ts, s3)
  | _, _, _ => .error .missing

/-- `unifyTypes(t1, t2, depth)` with fuel (the JS code has no occurs
check and can diverge; exhausted fuel reports `outOfFuel`, which
corresponds to no JS behaviour).  The `t1 == t2` reference-equality
shortcut is dropped: distinct heap nodes are never `==`.  Case order
follows the source: variable on the left, variable on the right,
constant vs constant, constant vs non-constant, array vs array
(`_unifyLists`: its length check lives here, its element loop is
`zipWithState`, each element unified at the incremented depth that
`_unifyLists` receives). -/
def unifyTypes : Nat → UState → Ty → Ty → Nat → Except Err (Ty × UState)
  | 0, _, _, _, _ => .error .outOfFuel
  | n + 1, s, t1, t2, d =>
    match t1, t2 with
    | .tVar a, _ =>
      updateUnifierWith (fun s3 u1 u2 dd => unifyTypes n s3 u1 u2 dd) s a t2 d
    | _, .tVar b =>
      updateUnifierWith (fun s3 u1 u2 dd => unifyTypes n s3 u1 u2 dd) s b t1 d
    | .tConst a, .tConst b =>
      if a = b then .ok (.tConst a, s)
      else .error (.cantUnifyConsts a b)
    | .tConst a, .tArr l =>
      .error (.cantUnifyMixed (.tConst a) (.tArr l))
    | .tArr l, .tConst a =>
      .error (.cantUnifyMixed (.tArr l) (.tConst a))
    | .tArr l1, .tArr l2 =>
      if l1.length ≠ l2.length then .error (.sizeMismatch l1 l2)
      else
        match zipWithState
            (fun s2 u1 u2 => unifyTypes n s2 u1 u2 (d + 1)) s l1 l2 with
        | .error e => .error e
        | .ok (ts, s2) => .ok (.tArr ts, s2)

/-- `isFunctionType(t)`: a three-element array whose middle element is
the constant `->`. -/
def isFunctionType : Ty → Bool
  | .tArr [_, .tConst n, _] => n = "->"
  | _ => false

/-- `functionInput(t)`: the first element, after checking
`isFunctionType` and raising "Expected a function type" otherwise. -/
def functionInput (t : Ty) : Except Err Ty :=
  if isFunctionType t then
    match t with
    | .tArr (i :: _) => .ok i
    | _ => .error (.invalidType "Expected a function type")
  else .error (.invalidType "Expected a function type")

/-- `functionOutput(t)`: the third element, after the same check. -/
def functionOutput (t : Ty) : Except Err Ty :=
  if isFunctionType t then
    match t with
    | .tArr [_, _, o] => .ok o
    | _ => .error (.invalidType "Expected a function type")
  else .error (.invalidType "Expected a function type")

/-- `composeFunctions(f, g)`: check both arguments are function types,
freshen them with salts 0 and 1, unify the output of `f` with the input
of `g` in a fresh `Unifier`, and return the function type from the
resolved input of `f` to the resolved output of `g`. -/
def composeFunctions (fuel : Nat) (f g : Ty) : Except Err Ty :=
  if !isFunctionType f then
    .error (.invalidType "Expected a function type for f")
  else if !isFunctionType g then
    .error (.invalidType "Expected a function type for g")
  else do
    let f1 := generateFreshNames f 0
    let g1 := generateFreshNames g 1
    let inF ← functionInput f1
    let outF ← functionOutput f1
    let inG ← functionInput g1
    let outG ← functionOutput g1
    let r ← unifyTypes fuel emptyU outF inG 0
    let input := getUnifiedType r.2 inF []
    let output := getUnifiedType r.2 outG []
    pure (functionType input output)

/-- `composeFunctionChain(fxns)`: the empty chain yields `idFunction()`;
otherwise the accumulator starts at `fxns[0]` and the loop runs over ALL
indices starting at 0, so `fxns[0]` is composed with itself first. -/
def composeFunctionChain (fuel : Nat) (fxns : List Ty) : Except Err Ty :=
  match fxns with
  | [] => .ok idFunction
  | f0 :: _ => fxns.foldlM (fun t fi => composeFunctions fuel t fi) f0

/-- `applyFunction(fxn, args)`: clone both arguments, unify the clone's
input with the cloned argument stack in a fresh `Unifier`, and resolve
the clone's output. -/
def applyFunction (fuel : Nat) (fxn args : Ty) : Except Err Ty :=
  let fxn1 := clone fxn
  let args1 := clone args
  do
    let input ← functionInput fxn1
    let output ← functionOutput fxn1
    let r ← unifyTypes fuel emptyU input args1 0
    pure (getUnifiedType r.2 output [])

/-- Specification-side element loop for claim C4: fold over the zipped
pairs, threading the `Unifier` state left to right and appending each
unified element, so that the `i`-th result element is the unification of
the `i`-th elements of the two lists. -/
def unifyElems (n : Nat) (s : UState) (pairs : List (Ty × Ty)) (d : Nat) :
    Except Err (List Ty × UState) :=
  pairs.foldlM
    (fun acc p =>
      (unifyTypes n acc.2 p.1 p.2 d).map fun r => (acc.1 ++ [r.1], r.2))
    ([], s)

/-- The `typeVarDeclarations` of a node (empty for non-arrays). -/
def rootDecls : ATy → List String
  | .aArr _ d => d
  | _ => []

mutual

/-- Every node of a decorated tree: the node itself followed by the
nodes of its children. -/
def allNodes : ATy → List ATy
  | .aVar n => [.aVar n]
  | .aConst n => [.aConst n]
  | .aArr l d => .aArr l d :: allNodesList l

/-- `allNodes` over a child list. -/
def allNodesList : List ATy → List ATy
  | [] => []
  | t :: ts => allNodes t ++ allNodesList ts

end

/-- The nodes strictly below the root. -/
def underNodes : ATy → List ATy
  | .aArr l _ => allNodesList l
  | _ => []

/-- The validation step at the end of the `TypeArray` constructor,
as a check over a whole decorated tree: every declared scheme variable of
every node must be among that node's `typeVars`.  The constructor throws
"Internal error: type scheme references a variable that is not marked as
referenced by the type variable" when this fails for the node it just
built. -/
def schemeConsistent (a : ATy) : Bool :=
  (allNodes a).all fun m => (rootDecls m).all fun x => decide (x ∈ varsA m)

/-- The property `schemeConsistent` checks, in `Prop` form: every node's
declared scheme variables occur among the node's `typeVars`. -/
def DeclsOk (a : ATy) : Prop :=
  ∀ m ∈ allNodes a, ∀ x ∈ rootDecls m, x ∈ varsA m

/-- `DeclsOk` for every node under a list of trees. -/
def DeclsOkList (l : List ATy) : Prop :=
  ∀ m ∈ allNodesList l, ∀ x ∈ rootDecls m, x ∈ varsA m

/-- Name `x` is quantified at this array and nowhere below it: it is
listed in the root's `typeVarDeclarations` and in no inner node's — the
name-level reading of "the variable's scheme field points to this
array". -/
def OwnsAtRoot (x : String) (a : ATy) : Prop :=
  x ∈ rootDecls a ∧ ∀ m ∈ underNodes a, x ∉ rootDecls m

/-- The decimal digit list of a number, most significant first: the
reference function that `Nat.toDigitsCore` computes (used to reason
about the `"t" + count` and `name + "$" + id` names the renaming
utilities build). -/
def digitsRec (n : Nat) : List Char :=
  if n / 10 = 0 then [Nat.digitChar (n % 10)]
  else digitsRec (n / 10) ++ [Nat.digitChar (n % 10)]
termination_by n
decreasing_by
  have h10 : 10 ≤ n := by
    by_contra hlt
    exact (by assumption : ¬ n / 10 = 0) (Nat.div_eq_of_lt (by omega))
  exact Nat.div_lt_self (by omega) (by omega)

/-- The type of `dup`, written `(('a 'b) -> ('a ('a 'b)))` in the
repository (`catTypes` in the test harness; `('a 'S -> 'a 'a 'S)` in
`cat.ts` parses to the same cons-pair shape): the input stack is the
pair `(a b)`, the output pushes another `a`. -/
def dupType : Ty :=
  functionType (.tArr [.tVar "a", .tVar "b"])
    (.tArr [.tVar "a", .tArr [.tVar "a", .tVar "b"]])

/-- The type of `pop`, written `(('a 'b) -> 'b)`. -/
def popType : Ty :=
  functionType (.tArr [.tVar "a", .tVar "b"]) (.tVar "b")

/-! ### A heap model of the mutable object graph

`applyFunction` is specified to leave its argument trees untouched; that
is a statement about object identity and in-place mutation, which the
pure tree embedding above cannot express.  This section re-embeds the
engine over an explicit heap: every `Type` object is a numbered node,
the immutable structure (`name`, `types`) lives in `nodes`, and the two
fields the code mutates in place — `TypeVariable.scheme` and
`TypeArray.typeVarDeclarations` — live in `scheme` and `decls`.  `next`
is the allocation counter; `new` allocates at `next`.  JS reference
equality (`t1 == t2`) is equality of node ids.  Error payloads carry
placeholders where the pure embedding carried trees; the frame results
below never inspect them. -/

/-- The immutable part of a `Type` object: its constructor kind, its
`name`, and (for a `TypeArray`) the node ids of its `types` children. -/
inductive HNode where
  | hVar (name : String)
  | hConst (name : String)
  | hArr (children : List Nat)
  deriving Repr, DecidableEq

/-- The object heap.  `nodes` is append-only; `scheme` and `decls` are
the mutable fields, updated by shadowing. -/
structure Heap where
  nodes : List (Nat × HNode)
  scheme : List (Nat × Nat)
  decls : List (Nat × List Nat)
  next : Nat
  deriving Repr

/-- Field read: the most recent binding of a key. -/
def hget {α : Type} (l : List (Nat × α)) (k : Nat) : Option α :=
  List.lookup k l

/-- Field write: shadow the key with a new binding. -/
def hset {α : Type} (l : List (Nat × α)) (k : Nat) (v : α) :
    List (Nat × α) :=
  (k, v) :: l

/-- `new TypeVariable(...)` / `new TypeConstant(...)` (and the structure
half of `new TypeArray(...)`): allocate a node at the next id. -/
def allocNode (h : Heap) (nd : HNode) : Nat × Heap :=
  (h.next,
    { nodes := hset h.nodes h.next nd, scheme := h.scheme,
      decls := h.decls, next := h.next + 1 })

/-- The `name` of a variable node. -/
def varNameH (h : Heap) (i : Nat) : Option String :=
  match hget h.nodes i with
  | some (.hVar n) => some n
  | _ => none

/-- Concatenating traversal of a child list (the loop building
`this.typeVars` out of the children's `typeVars` fields). -/
def travList (f : Nat → Option (List Nat)) : List Nat → Option (List Nat)
  | [] => some []
  | c :: cs =>
    match f c, travList f cs with
    | some v, some vs => some (v ++ vs)
    | _, _ => none

/-- The `typeVars` field of a node: the variable nodes of the subtree in
occurrence order.  The field is written once at construction and the
structure it is computed from is immutable, so recomputing it by
traversal is exact.  Fueled; `none` is exhaustion. -/
def typeVarsH : Nat → Heap → Nat → Option (List Nat)
  | 0, _, _ => none
  | fuel + 1, h, id =>
    match hget h.nodes id with
    | some (.hVar _) => some [id]
    | some (.hConst _) => some []
    | some (.hArr cs) => travList (typeVarsH fuel h) cs
    | none => none

/-- Collect the per-child results of a lookup, failing if any child
fails. -/
def optList (f : Nat → Option (List Nat)) :
    List Nat → Option (List (List Nat))
  | [] => some []
  | c :: cs =>
    match f c, optList f cs with
    | some v, some vs => some (v :: vs)
    | _, _ => none

/-- The structures of a list of nodes. -/
def optNodes (h : Heap) : List Nat → Option (List HNode)
  | [] => some []
  | c :: cs =>
    match hget h.nodes c, optNodes h cs with
    | some v, some vs => some (v :: vs)
    | _, _ => none

/-- `_isTypeVarUsedElsewhere(this, nm, i)` over the per-child name
lists, scanning child positions `j` upward: true when some position
other than `i` mentions `nm`. -/
def usedElseGoH : List (List String) → String → Nat → Nat → Bool
  | [], _, _, _ => false
  | l :: ls, nm, i, j =>
    (decide (j ≠ i) && l.contains nm) || usedElseGoH ls nm i (j + 1)

/-- The scheme-assignment loop of the `TypeArray` constructor, as the
sequence of names passed to `_reassignAllVarsToScheme` in order: a
variable child contributes its own name; an array child contributes each
of its `typeVars` names that `_isTypeVarUsedElsewhere` accepts. -/
def schedGoH (all : List (List String)) :
    List (HNode × List String) → Nat → List String
  | [], _ => []
  | (nd, nms) :: rest, i =>
    (match nd with
     | .hVar s => [s]
     | .hConst _ => []
     | .hArr _ => nms.filter fun nm => usedElseGoH all nm i 0) ++
    schedGoH all rest (i + 1)

/-- `_reassignVarScheme(v, t)`: drop `v`'s name from the declarations of
its previous scheme (if any), point `v.scheme` at `t`, and push `v` onto
`t`'s declarations.  Names are immutable, so they are read from the
incoming heap. -/
def reassignVarSchemeH (h : Heap) (v t : Nat) : Heap :=
  let h1 :=
    match hget h.scheme v with
    | some sOld =>
      let pruned := ((hget h.decls sOld).getD []).filter
        fun w => !(varNameH h w == varNameH h v)
      { h with decls := hset h.decls sOld pruned }
    | none => h
  let h2 := { h1 with scheme := hset h1.scheme v t }
  { h2 with decls := hset h2.decls t (((hget h2.decls t).getD []) ++ [v]) }

/-- `_reassignAllVarsToScheme(nm, t)`: reassign, in order, every node of
`t.typeVars` (passed in as `allIds`) whose name is `nm`. -/
def reassignAllH (h : Heap) (allIds : List Nat) (nm : String) (t : Nat) :
    Heap :=
  (allIds.filter fun v => varNameH h v == some nm).foldl
    (fun hh v => reassignVarSchemeH hh v t) h

/-- The allocation and scheme-assignment loop of `new TypeArray(cs)`:
allocate the array node (at `h.next`), then run
`_reassignAllVarsToScheme` on the scheduled names, over the array
`typeVars` `tvls.join`. -/
def mkArrayCoreH (h : Heap) (cs : List Nat) (nds : List HNode)
    (tvls : List (List Nat)) : Nat × Heap :=
  (h.next,
    (schedGoH (tvls.map fun l => l.filterMap (varNameH h))
        (nds.zip (tvls.map fun l => l.filterMap (varNameH h))) 0).foldl
      (fun hh nm => reassignAllH hh tvls.join nm h.next)
      (allocNode h (.hArr cs)).2)

/-- `new TypeArray(cs)`: read the children and their `typeVars`, run
the core, then the validation step (whose throw maps to an error
value). -/
def newTypeArrayH (fuel : Nat) (h : Heap) (cs : List Nat) :
    (Except Err Nat) × Heap :=
  match optNodes h cs, optList (typeVarsH fuel h) cs with
  | some nds, some tvls =>
    if ((hget (mkArrayCoreH h cs nds tvls).2.decls
          (mkArrayCoreH h cs nds tvls).1).getD []).all
        (fun v => (tvls.join).contains v) then
      (.ok (mkArrayCoreH h cs nds tvls).1, (mkArrayCoreH h cs nds tvls).2)
    else
      (.error (.invalidType "Internal error: type scheme references a variable that is not marked as referenced by the type variable"), (mkArrayCoreH h cs nds tvls).2)
  | _, _ => (.error .outOfFuel, h)

/-- Heap-threading map over a child list (the `t.types.map(clone)` loop
of `clone` and the `expr.types.map(...)` loop of `getUnifiedType`). -/
def mapStateH (f : Heap → Nat → (Except Err Nat) × Heap) :
    Heap → List Nat → (Except Err (List Nat)) × Heap
  | h, [] => (.ok [], h)
  | h, c :: cs =>
    match f h c with
    | (.ok r, h1) =>
      match mapStateH f h1 cs with
      | (.ok rs, h2) => (.ok (r :: rs), h2)
      | (.error e, h2) => (.error e, h2)
    | (.error e, h1) => (.error e, h1)

/-- `clone(t)` (fueled): fresh variable and constant nodes for the
leaves, a fresh `TypeArray` (with its constructor run) for each
array. -/
def cloneH : Nat → Heap → Nat → (Except Err Nat) × Heap
  | 0, h, _ => (.error .outOfFuel, h)
  | fuel + 1, h, id =>
    match hget h.nodes id with
    | some (.hVar s) =>
      let p := allocNode h (.hVar s)
      (.ok p.1, p.2)
    | some (.hConst s) =>
      let p := allocNode h (.hConst s)
      (.ok p.1, p.2)
    | some (.hArr cs) =>
      match mapStateH (fun h2 c => cloneH fuel h2 c) h cs with
      | (.ok rs, h1) => newTypeArrayH fuel h1 rs
      | (.error e, h1) => (.error e, h1)
    | none => (.error .missing, h)

/-- The `Unifier` state over the heap: `assign` maps variable names to
record ids, `recs` maps record ids to the node id currently stored in
the record's `unifier` field. -/
structure USH where
  assign : List (String × Nat)
  recs : List (Nat × Nat)
  next : Nat
  deriving Repr

/-- The freshly constructed `Unifier`. -/
def emptyUSH : USH := ⟨[], [], 0⟩

/-- `_getOrCreateUnifier`: find the record for a name, or create one
whose `unifier` starts as the variable node itself. -/
def getOrCreateH (s : USH) (x : String) (xid : Nat) : Nat × USH :=
  match alookup s.assign x with
  | some rid => (rid, s)
  | none =>
    (s.next,
      ⟨s.assign ++ [(x, s.next)], s.recs ++ [(s.next, xid)], s.next + 1⟩)

/-- `u.unifier = ...`: overwrite the node stored in record `rid`. -/
def recsSetH (s : USH) (rid : Nat) (t : Nat) : USH :=
  { s with recs := s.recs.map fun p => if p.1 = rid then (rid, t) else p }

/-- `_updateVariableUnifiers(varName, u)`: repoint every name whose
record currently holds a bare variable node named `varName` to record
`uid`. -/
def updateVarUnifiersH (s : USH) (h : Heap) (varName : String)
    (uid : Nat) : USH :=
  { s with
    assign := s.assign.map fun p =>
      match s.recs.lookup p.2 with
      | some nid =>
        match hget h.nodes nid with
        | some (.hVar w) => if w = varName then (p.1, uid) else p
        | _ => p
      | none => p }

/-- `_chooseBestUnifier(t1, t2, depth)` over node ids, parameterised by
the recursive unification call. -/
def chooseBestWithH
    (recur : Heap → USH → Nat → Nat → Nat → (Except Err Nat) × Heap × USH)
    (h : Heap) (s : USH) (t1 t2 d : Nat) : (Except Err Nat) × Heap × USH :=
  match hget h.nodes t1, hget h.nodes t2 with
  | some (.hVar _), some (.hVar _) => (.ok t1, h, s)
  | some (.hVar _), some _ => (.ok t2, h, s)
  | some _, some (.hVar _) => (.ok t1, h, s)
  | some _, some _ => recur h s t1 t2 (d + 1)
  | _, _ => (.error .missing, h, s)

/-- `_updateUnifier(a, t, depth)` over node ids: `aId` is the variable
node, `a` its name, `t` the other node. -/
def updateUnifierH
    (recur : Heap → USH → Nat → Nat → Nat → (Except Err Nat) × Heap × USH)
    (h : Heap) (s : USH) (a : String) (aId t d : Nat) :
    (Except Err Nat) × Heap × USH :=
  match (getOrCreateH s a aId).2.recs.lookup (getOrCreateH s a aId).1 with
  | none => (.error .missing, h, (getOrCreateH s a aId).2)
  | some cur =>
    match chooseBestWithH recur h (getOrCreateH s a aId).2 cur t d with
    | (.error e, h2, s2) => (.error e, h2, s2)
    | (.ok best, h2, s2) =>
      (.ok best, h2,
        match hget h2.nodes t with
        | some (.hVar b) =>
          updateVarUnifiersH
            (getOrCreateH
              (updateVarUnifiersH
                (recsSetH s2 (getOrCreateH s a aId).1 best) h2 a
                (getOrCreateH s a aId).1) b t).2 h2 b
            (getOrCreateH s a aId).1
        | _ =>
          updateVarUnifiersH (recsSetH s2 (getOrCreateH s a aId).1 best)
            h2 a (getOrCreateH s a aId).1)

/-- The element loop of `_unifyLists` over the heap, threading both heap
and unifier state. -/
def zipWithStateH
    (f : Heap → USH → Nat → Nat → (Except Err Nat) × Heap × USH) :
    Heap → USH → List Nat → List Nat → (Except Err (List Nat)) × Heap × USH
  | h, s, [], [] => (.ok [], h, s)
  | h, s, x :: xs, y :: ys =>
    match f h s x y with
    | (.ok r, h1, s1) =>
      match zipWithStateH f h1 s1 xs ys with
      | (.ok rs, h2, s2) => (.ok (r :: rs), h2, s2)
      | (.error e, h2, s2) => (.error e, h2, s2)
    | (.error e, h1, s1) => (.error e, h1, s1)
  | h, s, _, _ => (.error .missing, h, s)

/-- `unifyTypes(t1, t2, depth)` over the heap.  The `t1 == t2`
reference-equality shortcut is id equality here.  `_unifyLists` ends by
building `new TypeArray(rtypes)`, which mutates scheme fields — the one
place unification writes to the heap. -/
def unifyTypesH : Nat → Heap → USH → Nat → Nat → Nat →
    (Except Err Nat) × Heap × USH
  | 0, h, s, _, _, _ => (.error .outOfFuel, h, s)
  | fuel + 1, h, s, t1, t2, d =>
    if t1 = t2 then (.ok t1, h, s)
    else
      match hget h.nodes t1, hget h.nodes t2 with
      | some (.hVar a), some _ =>
        updateUnifierH (fun h2 s2 u1 u2 dd => unifyTypesH fuel h2 s2 u1 u2 dd)
          h s a t1 t2 d
      | some _, some (.hVar b) =>
        updateUnifierH (fun h2 s2 u1 u2 dd => unifyTypesH fuel h2 s2 u1 u2 dd)
          h s b t2 t1 d
      | some (.hConst a), some (.hConst b) =>
        if a = b then (.ok t1, h, s)
        else (.error (.cantUnifyConsts a b), h, s)
      | some (.hConst a), some (.hArr _) =>
        (.error (.cantUnifyMixed (.tConst a) (.tConst "array")), h, s)
      | some (.hArr _), some (.hConst a) =>
        (.error (.cantUnifyMixed (.tConst "array") (.tConst a)), h, s)
      | some (.hArr l1), some (.hArr l2) =>
        if l1.length ≠ l2.length then (.error (.sizeMismatch [] []), h, s)
        else
          match zipWithStateH
              (fun h2 s2 u1 u2 => unifyTypesH fuel h2 s2 u1 u2 (d + 1))
              h s l1 l2 with
          | (.ok rs, h2, s2) =>
            match newTypeArrayH fuel h2 rs with
            | (.ok r, h3) => (.ok r, h3, s2)
            | (.error e, h3) => (.error e, h3, s2)
          | (.error e, h2, s2) => (.error e, h2, s2)
      | _, _ => (.error .missing, h, s)

/-- `recursiveType(i)` over the heap:
`typeArray([typeConstant("rec"), typeConstant(i.toString())])`. -/
def recursiveTypeH (fuel : Nat) (h : Heap) (i : Nat) :
    (Except Err Nat) × Heap :=
  let p1 := allocNode h (.hConst "rec")
  let p2 := allocNode p1.2 (.hConst (Nat.repr i))
  newTypeArrayH fuel p2.2 [p1.1, p2.1]

/-- `getUnifiedType(expr, previousVars)` over the heap: reads the
unifier state, allocates fresh arrays (running their constructors) for
the rebuilt result and for recursion markers. -/
def getUnifiedTypeH : Nat → Heap → USH → Nat → List String →
    (Except Err Nat) × Heap
  | 0, h, _, _, _ => (.error .outOfFuel, h)
  | fuel + 1, h, s, e, prev =>
    match hget h.nodes e with
    | some (.hConst _) => (.ok e, h)
    | some (.hVar nm) =>
      match firstIdx nm prev with
      | some i => recursiveTypeH fuel h i
      | none =>
        match alookup s.assign nm with
        | none => (.ok e, h)
        | some rid =>
          match s.recs.lookup rid with
          | none => (.ok e, h)
          | some uid =>
            match hget h.nodes uid with
            | some (.hVar _) => (.ok uid, h)
            | some (.hConst _) => (.ok uid, h)
            | some (.hArr _) => getUnifiedTypeH fuel h s uid (nm :: prev)
            | none => (.error .missing, h)
    | some (.hArr cs) =>
      match mapStateH (fun h2 c => getUnifiedTypeH fuel h2 s c prev) h cs with
      | (.ok rs, h1) => newTypeArrayH fuel h1 rs
      | (.error e, h1) => (.error e, h1)
    | none => (.error .missing, h)

/-- `isFunctionType` over the heap. -/
def isFunctionTypeH (h : Heap) (t : Nat) : Bool :=
  match hget h.nodes t with
  | some (.hArr [_, m, _]) =>
    match hget h.nodes m with
    | some (.hConst n) => n = "->"
    | _ => false
  | _ => false

/-- `functionInput` over the heap. -/
def functionInputH (h : Heap) (t : Nat) : Except Err Nat :=
  if isFunctionTypeH h t then
    match hget h.nodes t with
    | some (.hArr (i :: _)) => .ok i
    | _ => .error (.invalidType "Expected a function type")
  else .error (.invalidType "Expected a function type")

/-- `functionOutput` over the heap. -/
def functionOutputH (h : Heap) (t : Nat) : Except Err Nat :=
  if isFunctionTypeH h t then
    match hget h.nodes t with
    | some (.hArr [_, _, o]) => .ok o
    | _ => .error (.invalidType "Expected a function type")
  else .error (.invalidType "Expected a function type")

/-- `applyFunction(fxn, args)` over the heap, in source order: make a
`Unifier`, clone both arguments, take the clone's input and output,
unify the cloned input with the cloned arguments, resolve the output.
The heap is returned in every case, error or not. -/
def applyFunctionH (fuel : Nat) (h : Heap) (fxn args : Nat) :
    (Except Err Nat) × Heap :=
  match cloneH fuel h fxn with
  | (.error e, h1) => (.error e, h1)
  | (.ok f1, h1) =>
    match cloneH fuel h1 args with
    | (.error e, h2) => (.error e, h2)
    | (.ok a1, h2) =>
      match functionInputH h2 f1 with
      | .error e => (.error e, h2)
      | .ok input =>
        match functionOutputH h2 f1 with
        | .error e => (.error e, h2)
        | .ok output =>
          match unifyTypesH fuel h2 emptyUSH input a1 0 with
          | (.error e, h3, _) => (.error e, h3)
          | (.ok _, h3, s1) => getUnifiedTypeH fuel h3 s1 output []

/-- Read a subtree back as a pure tree. -/
def readList (f : Nat → Option Ty) : List Nat → Option (List Ty)
  | [] => some []
  | c :: cs =>
    match f c, readList f cs with
    | some v, some vs => some (v :: vs)
    | _, _ => none

/-- Read the tree rooted at a node (fueled). -/
def readTy : Nat → Heap → Nat → Option Ty
  | 0, _, _ => none
  | fuel + 1, h, id =>
    match hget h.nodes id with
    | some (.hVar s) => some (.tVar s)
    | some (.hConst s) => some (.tConst s)
    | some (.hArr cs) => (readList (readTy fuel h) cs).map Ty.tArr
    | none => none

/-- Every id on the subtree rooted here is at least `n` (the trees the
engine works on after the clones are of this kind, with `n` the
allocation frontier at entry). -/
inductive HighTree (n : Nat) (h : Heap) : Nat → Prop where
  | var : ∀ i s, n ≤ i → hget h.nodes i = some (.hVar s) → HighTree n h i
  | const : ∀ i s, n ≤ i → hget h.nodes i = some (.hConst s) →
      HighTree n h i
  | arr : ∀ i cs, n ≤ i → hget h.nodes i = some (.hArr cs) →
      (∀ c ∈ cs, HighTree n h c) → HighTree n h i

/-- Every id on the subtree rooted here is below `n` (the original
argument trees are of this kind). -/
inductive LowTree (n : Nat) (h : Heap) : Nat → Prop where
  | var : ∀ i s, i < n → hget h.nodes i = some (.hVar s) → LowTree n h i
  | const : ∀ i s, i < n → hget h.nodes i = some (.hConst s) →
      LowTree n h i
  | arr : ∀ i cs, i < n → hget h.nodes i = some (.hArr cs) →
      (∀ c ∈ cs, LowTree n h c) → LowTree n h i

/-- Every allocated node sits below the allocation counter. -/
def NodesBound (h : Heap) : Prop := ∀ p ∈ h.nodes, p.1 < h.next

/-- Every scheme binding is keyed below the allocation counter. -/
def SchemeBound (h : Heap) : Prop := ∀ p ∈ h.scheme, p.1 < h.next

/-- Scheme bindings of nodes at or above `n` point at or above `n`. -/
def SchemeHigh (n : Nat) (h : Heap) : Prop :=
  ∀ v s, hget h.scheme v = some s → n ≤ v → n ≤ s

/-- `h2.nodes` extends `h.nodes`: structure is never overwritten. -/
def NExt (h h2 : Heap) : Prop :=
  ∀ k v, hget h.nodes k = some v → hget h2.nodes k = some v

/-- The frame relation: every field readable below `n` reads the same in
both heaps, structure only grows, and the counter only grows. -/
def FrameOK (n : Nat) (h h2 : Heap) : Prop :=
  (∀ k, k < n → hget h2.nodes k = hget h.nodes k) ∧
  (∀ k, k < n → hget h2.scheme k = hget h.scheme k) ∧
  (∀ k, k < n → hget h2.decls k = hget h.decls k) ∧
  NExt h h2 ∧ h.next ≤ h2.next

/-- The running well-formedness invariant. -/
def GoodH (n : Nat) (h : Heap) : Prop :=
  n ≤ h.next ∧ NodesBound h ∧ SchemeHigh n h

/-- One engine step: frame plus restored invariant. -/
def StepOK (n : Nat) (h h2 : Heap) : Prop := FrameOK n h h2 ∧ GoodH n h2

/-- Every node stored in a unifier record is a high tree. -/
def USHHigh (n : Nat) (h : Heap) (s : USH) : Prop :=
  ∀ rid uid, s.recs.lookup rid = some uid → HighTree n h uid

/-- Postcondition of a heap-and-unifier step. -/
def UPost (n : Nat) (h : Heap) (r : (Except Err Nat) × Heap × USH) :
    Prop :=
  StepOK n h r.2.1 ∧ USHHigh n r.2.1 r.2.2 ∧
  ∀ v, r.1 = .ok v → HighTree n r.2.1 v

/-- Postcondition of a heap-only step. -/
def GPost (n : Nat) (h : Heap) (r : (Except Err Nat) × Heap) : Prop :=
  StepOK n h r.2 ∧ ∀ v, r.1 = .ok v → HighTree n r.2 v

/-- Postcondition of a heap-and-unifier step returning a list. -/
def UPostL (n : Nat) (h : Heap)
    (r : (Except Err (List Nat)) × Heap × USH) : Prop :=
  StepOK n h r.2.1 ∧ USHHigh n r.2.1 r.2.2 ∧
  ∀ rs, r.1 = .ok rs → ∀ x ∈ rs, HighTree n r.2.1 x

/-- A tiny well-formed heap for evaluating the frame theorem: node 3 is
the function type `('a -> 'a)` (two occurrences of the variable, both
owned by the array), node 4 the argument `Num`. -/
def wHeap : Heap :=
  { nodes := [(0, .hVar "a"), (1, .hConst "->"), (2, .hVar "a"),
      (3, .hArr [0, 1, 2]), (4, .hConst "Num")],
    scheme := [(0, 3), (2, 3)],
    decls := [(3, [0, 2])],
    next := 5 }


end TypeInference

namespace TypeInference

/-! ## Claims -/

/-- Evaluation lemma: the unifier state reached by `composeFunctions` on
`dup` and `pop` after unifying the freshened output of `dup` with the
freshened input of `pop`, with the two `getUnifiedType` resolutions it
performs on that state. -/
theorem compose_dup_pop_eval :
    composeFunctions 100 dupType popType =
      .ok (functionType (.tArr [.tVar "a$0", .tVar "b$0"])
        (.tArr [.tVar "a$0", .tVar "b$0"])) := by
  show Except.ok (functionType
      (getUnifiedType
        ⟨[("a$0", 0), ("a$1", 0), ("b$1", 2)],
         [(0, .tVar "a$0"), (1, .tVar "a$1"),
          (2, .tArr [.tVar "a$0", .tVar "b$0"])], 3⟩
        (.tArr [.tVar "a$0", .tVar "b$0"]) [])
      (getUnifiedType
        ⟨[("a$0", 0), ("a$1", 0), ("b$1", 2)],
         [(0, .tVar "a$0"), (1, .tVar "a$1"),
          (2, .tArr [.tVar "a$0", .tVar "b$0"])], 3⟩
        (.tVar "b$1") [])) = _
  rw [show getUnifiedType
        ⟨[("a$0", 0), ("a$1", 0), ("b$1", 2)],
         [(0, .tVar "a$0"), (1, .tVar "a$1"),
          (2, .tArr [.tVar "a$0", .tVar "b$0"])], 3⟩
        (.tArr [.tVar "a$0", .tVar "b$0"]) [] =
        .tArr [.tVar "a$0", .tVar "b$0"] from by
      simp [getUnifiedType, getUnifiedTypeList, firstIdx, alookup, recsGetD, List.lookup]]
  rw [show getUnifiedType
        ⟨[("a$0", 0), ("a$1", 0), ("b$1", 2)],
         [(0, .tVar "a$0"), (1, .tVar "a$1"),
          (2, .tArr [.tVar "a$0", .tVar "b$0"])], 3⟩
        (.tVar "b$1") [] =
        .tArr [.tVar "a$0", .tVar "b$0"] from by
      simp [getUnifiedType, getUnifiedTypeList, firstIdx, alookup, recsGetD, List.lookup]]

/-- Evaluation lemma: `composeFunctions` on `dup` and `dup` (the very
composition the buggy `composeFunctionChain` performs on a one-element
chain). -/
theorem compose_dup_dup_eval :
    composeFunctions 100 dupType dupType =
      .ok (functionType (.tArr [.tVar "a$0", .tVar "b$0"])
        (.tArr [.tVar "a$0",
          .tArr [.tVar "a$0", .tArr [.tVar "a$0", .tVar "b$0"]]])) := by
  show Except.ok (functionType
      (getUnifiedType
        ⟨[("a$0", 0), ("a$1", 0), ("b$1", 2)],
         [(0, .tVar "a$0"), (1, .tVar "a$1"),
          (2, .tArr [.tVar "a$0", .tVar "b$0"])], 3⟩
        (.tArr [.tVar "a$0", .tVar "b$0"]) [])
      (getUnifiedType
        ⟨[("a$0", 0), ("a$1", 0), ("b$1", 2)],
         [(0, .tVar "a$0"), (1, .tVar "a$1"),
          (2, .tArr [.tVar "a$0", .tVar "b$0"])], 3⟩
        (.tArr [.tVar "a$1", .tArr [.tVar "a$1", .tVar "b$1"]]) [])) = _
  rw [show getUnifiedType
        ⟨[("a$0", 0), ("a$1", 0), ("b$1", 2)],
         [(0, .tVar "a$0"), (1, .tVar "a$1"),
          (2, .tArr [.tVar "a$0", .tVar "b$0"])], 3⟩
        (.tArr [.tVar "a$0", .tVar "b$0"]) [] =
        .tArr [.tVar "a$0", .tVar "b$0"] from by
      simp [getUnifiedType, getUnifiedTypeList, firstIdx, alookup, recsGetD,
        List.lookup]]
  rw [show getUnifiedType
        ⟨[("a$0", 0), ("a$1", 0), ("b$1", 2)],
         [(0, .tVar "a$0"), (1, .tVar "a$1"),
          (2, .tArr [.tVar "a$0", .tVar "b$0"])], 3⟩
        (.tArr [.tVar "a$1", .tArr [.tVar "a$1", .tVar "b$1"]]) [] =
        .tArr [.tVar "a$0",
          .tArr [.tVar "a$0", .tArr [.tVar "a$0", .tVar "b$0"]]] from by
      simp [getUnifiedType, getUnifiedTypeList, firstIdx, alookup, recsGetD,
        List.lookup]]

/-- Evaluation lemma: `composeFunctions` of the "dup dup" type with
`pop`, the second step of the buggy chain over `[dup, pop]`; the result
is the type of `dup` itself (with twice-salted names). -/
theorem compose_dupdup_pop_eval :
    composeFunctions 100
      (functionType (.tArr [.tVar "a$0", .tVar "b$0"])
        (.tArr [.tVar "a$0",
          .tArr [.tVar "a$0", .tArr [.tVar "a$0", .tVar "b$0"]]]))
      popType =
      .ok (functionType (.tArr [.tVar "a$0$0", .tVar "b$0$0"])
        (.tArr [.tVar "a$0$0", .tArr [.tVar "a$0$0", .tVar "b$0$0"]])) := by
  show Except.ok (functionType
      (getUnifiedType
        ⟨[("a$0$0", 0), ("a$1", 0), ("b$1", 2)],
         [(0, .tVar "a$0$0"), (1, .tVar "a$1"),
          (2, .tArr [.tVar "a$0$0",
            .tArr [.tVar "a$0$0", .tVar "b$0$0"]])], 3⟩
        (.tArr [.tVar "a$0$0", .tVar "b$0$0"]) [])
      (getUnifiedType
        ⟨[("a$0$0", 0), ("a$1", 0), ("b$1", 2)],
         [(0, .tVar "a$0$0"), (1, .tVar "a$1"),
          (2, .tArr [.tVar "a$0$0",
            .tArr [.tVar "a$0$0", .tVar "b$0$0"]])], 3⟩
        (.tVar "b$1") [])) = _
  rw [show getUnifiedType
        ⟨[("a$0$0", 0), ("a$1", 0), ("b$1", 2)],
         [(0, .tVar "a$0$0"), (1, .tVar "a$1"),
          (2, .tArr [.tVar "a$0$0",
            .tArr [.tVar "a$0$0", .tVar "b$0$0"]])], 3⟩
        (.tArr [.tVar "a$0$0", .tVar "b$0$0"]) [] =
        .tArr [.tVar "a$0$0", .tVar "b$0$0"] from by
      simp [getUnifiedType, getUnifiedTypeList, firstIdx, alookup, recsGetD,
        List.lookup]]
  rw [show getUnifiedType
        ⟨[("a$0$0", 0), ("a$1", 0), ("b$1", 2)],
         [(0, .tVar "a$0$0"), (1, .tVar "a$1"),
          (2, .tArr [.tVar "a$0$0",
            .tArr [.tVar "a$0$0", .tVar "b$0$0"]])], 3⟩
        (.tVar "b$1") [] =
        .tArr [.tVar "a$0$0", .tArr [.tVar "a$0$0", .tVar "b$0$0"]] from by
      simp [getUnifiedType, getUnifiedTypeList, firstIdx, alookup, recsGetD,
        List.lookup]]

/-- C1, counterexample: composing the primitive signatures of `dup` and
`pop` with `composeFunctions` and normalizing does NOT render as the
plain identity `!t0.(t0 -> t0)`; it renders as the two-cell identity
stack effect `!t0!t1.((t0 t1) -> (t0 t1))` (which is what the test table
`catTests` lists for "dup pop"). -/
theorem c1_dup_pop_counterexample :
    (composeFunctions 100 dupType popType).map
        (fun t => render (normalizeVarNames t)) =
      .ok "!t0!t1.((t0 t1) -> (t0 t1))" ∧
    ("!t0!t1.((t0 t1) -> (t0 t1))" : String) ≠ "!t0.(t0 -> t0)" :=
  ⟨by rw [compose_dup_pop_eval]; rfl, by decide⟩


/-- C1, amended: with the primitive signatures
`dup : (('a 'b) -> ('a ('a 'b)))` and `pop : (('a 'b) -> 'b)`,
`composeFunctions(dup, pop)` followed by `normalizeVarNames` renders as
the two-cell identity stack effect `!t0!t1.((t0 t1) -> (t0 t1))`
(exactly the `catTests` entry for "dup pop"), not `!t0.(t0 -> t0)`; and
`composeFunctionChain([dup, pop])` is NOT equivalent to it: the chain
composes `dup` with itself first, so it yields the type of `dup`
back. -/
theorem c1_dup_pop_amended :
    (composeFunctions 100 dupType popType).map
        (fun t => render (normalizeVarNames t)) =
      .ok "!t0!t1.((t0 t1) -> (t0 t1))" ∧
    (composeFunctionChain 100 [dupType, popType]).map
        (fun t => render (normalizeVarNames t)) =
      .ok "!t0!t1.((t0 t1) -> (t0 (t0 t1)))" := by
  constructor
  · rw [compose_dup_pop_eval]
    rfl
  · simp only [composeFunctionChain, List.foldlM, compose_dup_dup_eval,
      Except.instMonad, Except.bind]
    rw [compose_dupdup_pop_eval]
    rfl

/-- C2: the empty chain does yield the identity function type, rendered
`!t0.(t0 -> t0)`; but `composeFunctionChain` is NOT the left fold of
`composeFunctions` over its elements: on the one-element chain `[dup]`
it computes `composeFunctions(dup, dup)` (the loop index starts at 0
while the accumulator already holds `fxns[0]`), whose normalized render
differs from that of `dup` itself — contradicting the repository's own
test table, whose "dup" row expects the type of `dup` back. -/
theorem c2_composeFunctionChain_off_by_one :
    (composeFunctionChain 100 []).map
        (fun t => render (normalizeVarNames t)) = .ok "!t0.(t0 -> t0)" ∧
    composeFunctionChain 100 [dupType] = composeFunctions 100 dupType dupType ∧
    (composeFunctionChain 100 [dupType]).map
        (fun t => render (normalizeVarNames t)) =
      .ok "!t0!t1.((t0 t1) -> (t0 (t0 (t0 t1))))" ∧
    render (normalizeVarNames dupType) = "!t0!t1.((t0 t1) -> (t0 (t0 t1)))" ∧
    ("!t0!t1.((t0 t1) -> (t0 (t0 (t0 t1))))" : String) ≠
      "!t0!t1.((t0 t1) -> (t0 (t0 t1)))" := by
  refine ⟨rfl, ?_, ?_, rfl, by decide⟩
  · simp only [composeFunctionChain, List.foldlM, compose_dup_dup_eval,
      Except.instMonad, Except.bind]
    rfl
  · simp only [composeFunctionChain, List.foldlM, compose_dup_dup_eval,
      Except.instMonad, Except.bind]
    rfl


/-- C3: `getUnifiedType` is total (it is defined by well-founded
recursion over (unexpanded substitution entries, expression size), so it
terminates on EVERY unifier state), and it handles cycles by marker
rather than error: first, for every state, whenever resolution reaches a
variable already on the `previousVars` expansion chain, the result is
the recursive-type marker `(rec i)` — the 2-element array of the
constant `rec` and the constant for the chain position `i` where the
cycle closes.  Second, concretely: after unifying `'a` with
`(Num -> 'a)`, resolving `'a` returns `(Num -> (rec 0))`. -/
theorem c3_getUnifiedType_recursion_marker :
    (∀ (s : UState) (v : String) (prev : List String) (i : Nat),
      firstIdx v prev = some i →
      getUnifiedType s (.tVar v) prev = recursiveType i) ∧
    (unifyTypes 100 emptyU (.tVar "a")
        (functionType (.tConst "Num") (.tVar "a")) 0).map
      (fun r => getUnifiedType r.2 (.tVar "a") []) =
      .ok (functionType (.tConst "Num") (recursiveType 0)) := by
  constructor
  · intro s v prev i h
    unfold getUnifiedType
    rw [h]
  · show Except.ok (getUnifiedType
        ⟨[("a", 0)], [(0, functionType (.tConst "Num") (.tVar "a"))], 1⟩
        (.tVar "a") []) = _
    rw [show getUnifiedType
        ⟨[("a", 0)], [(0, functionType (.tConst "Num") (.tVar "a"))], 1⟩
        (.tVar "a") [] = functionType (.tConst "Num") (recursiveType 0) from by
      simp [getUnifiedType, getUnifiedTypeList, firstIdx, alookup, recsGetD,
        List.lookup, functionType, recursiveType]]

/-- Witness for C3: the general cycle rule applied to a concrete state
and chain (the variable `x` sits at position 1 of the chain, so the
marker is `(rec 1)`). -/
theorem c3_witness :
    getUnifiedType emptyU (.tVar "x") ["y", "x"] = recursiveType 1 :=
  c3_getUnifiedType_recursion_marker.1 emptyU "x" ["y", "x"] 1 rfl


mutual

/-- Resolving any type through a freshly constructed `Unifier` returns
the type itself. -/
theorem getUnified_emptyU (t : Ty) : getUnifiedType emptyU t [] = t := by
  match t with
  | .tConst n => simp [getUnifiedType]
  | .tVar v => simp [getUnifiedType, firstIdx, alookup, emptyU]
  | .tArr l =>
    unfold getUnifiedType
    rw [getUnifiedList_emptyU l]

/-- `getUnified_emptyU` over a child list. -/
theorem getUnifiedList_emptyU (l : List Ty) :
    getUnifiedTypeList emptyU l [] = l := by
  match l with
  | [] => simp [getUnifiedTypeList]
  | t :: ts =>
    unfold getUnifiedTypeList
    rw [getUnified_emptyU t, getUnifiedList_emptyU ts]

end

/-- C10: resolving an unconstrained variable is the identity — a
variable whose name has no entry in the substitution table resolves to
itself in any state — and resolving any type through a freshly
constructed (empty) `Unifier` returns an identical tree, hence a type
with the same rendered form. -/
theorem c10_resolve_unconstrained_identity :
    (∀ (s : UState) (v : String), alookup s.assign v = none →
      getUnifiedType s (.tVar v) [] = .tVar v) ∧
    (∀ t : Ty, getUnifiedType emptyU t [] = t ∧
      render (getUnifiedType emptyU t []) = render t) := by
  constructor
  · intro s v h
    unfold getUnifiedType
    simp only [firstIdx]
    rw [h]
  · intro t
    refine ⟨getUnified_emptyU t, ?_⟩
    rw [getUnified_emptyU t]

/-- Witness for C10: a fresh variable resolves to itself through a fresh
`Unifier`, and the `dup` signature resolves to itself through a fresh
`Unifier`. -/
theorem c10_witness :
    getUnifiedType emptyU (.tVar "q") [] = .tVar "q" ∧
    getUnifiedType emptyU dupType [] = dupType :=
  ⟨c10_resolve_unconstrained_identity.1 emptyU "q" rfl,
   (c10_resolve_unconstrained_identity.2 dupType).1⟩


/-- `Except.map` and bind reduction on constructors (definitional). -/
theorem emap_ok {a b : Type} (f : a → b) (x : a) :
    Except.map f (Except.ok x : Except Err a) = .ok (f x) := rfl

theorem emap_err {a b : Type} (f : a → b) (e : Err) :
    Except.map f (Except.error e : Except Err a) = .error e := rfl

theorem ebind_ok {a b : Type} (f : a → Except Err b) (x : a) :
    (Except.ok x : Except Err a) >>= f = f x := rfl

theorem ebind_err {a b : Type} (f : a → Except Err b) (e : Err) :
    (Except.error e : Except Err a) >>= f = .error e := rfl

/-- The element loop threaded through a fold: folding the zipped pairs
with an accumulator equals running `zipWithState` and prepending the
accumulator.  (`f` is the per-element unification step.) -/
theorem foldlM_zipWithState
    (f : UState → Ty → Ty → Except Err (Ty × UState)) :
    ∀ (l1 l2 : List Ty), l1.length = l2.length →
    ∀ (s : UState) (acc : List Ty),
      (l1.zip l2).foldlM
        (fun a p => (f a.2 p.1 p.2).map fun r => (a.1 ++ [r.1], r.2))
        (acc, s) =
      (zipWithState f s l1 l2).map (fun r => (acc ++ r.1, r.2)) := by
  intro l1
  induction l1 with
  | nil =>
    intro l2 hlen s acc
    cases l2 with
    | nil =>
      simp [zipWithState, List.foldlM, Except.map, pure, Except.pure]
    | cons y ys => simp at hlen
  | cons x xs ih =>
    intro l2 hlen s acc
    cases l2 with
    | nil => simp at hlen
    | cons y ys =>
      simp only [List.length_cons, Nat.succ.injEq] at hlen
      simp only [List.zip_cons_cons, List.foldlM, zipWithState]
      cases hf : f s x y with
      | error e => simp only [hf, emap_err, ebind_err]
      | ok r =>
        obtain ⟨t, s2⟩ := r
        simp only [hf, emap_ok, ebind_ok]
        have ih2 := ih ys hlen s2 (acc ++ [t])
        simp only [List.zip] at ih2
        rw [ih2]
        cases hz : zipWithState f s2 xs ys with
        | error e => simp only [hz, emap_err]
        | ok r2 =>
          obtain ⟨ts, s3⟩ := r2
          simp only [hz, emap_ok, List.append_assoc, List.singleton_append]

/-- C4: unifying two arrays of different lengths always raises the
`UnificationError` of `_unifyLists` ("Cannot unify differently sized
lists"), for every state, depth and (positive) fuel — no truncation or
padding; and with equal lengths the result is the new array whose `i`-th
element is the unification of the `i`-th elements of the inputs, with
the unifier state threaded left to right (`unifyElems` over the zipped
element pairs). -/
theorem c4_unifyTypes_arrays :
    (∀ (n : Nat) (s : UState) (l1 l2 : List Ty) (d : Nat),
      l1.length ≠ l2.length →
      unifyTypes (n + 1) s (.tArr l1) (.tArr l2) d =
        .error (.sizeMismatch l1 l2)) ∧
    (∀ (n : Nat) (s : UState) (l1 l2 : List Ty) (d : Nat),
      l1.length = l2.length →
      unifyTypes (n + 1) s (.tArr l1) (.tArr l2) d =
        (unifyElems n s (l1.zip l2) (d + 1)).map
          (fun r => (Ty.tArr r.1, r.2))) := by
  constructor
  · intro n s l1 l2 d h
    simp only [unifyTypes]
    rw [if_pos h]
  · intro n s l1 l2 d h
    simp only [unifyTypes]
    rw [if_neg (by omega)]
    unfold unifyElems
    rw [foldlM_zipWithState
      (fun s2 u1 u2 => unifyTypes n s2 u1 u2 (d + 1)) l1 l2 h s []]
    cases hz : zipWithState
        (fun s2 u1 u2 => unifyTypes n s2 u1 u2 (d + 1)) s l1 l2 with
    | error e => simp only [hz, emap_err]
    | ok r =>
      obtain ⟨ts, s3⟩ := r
      simp only [hz, emap_ok, List.nil_append]

/-- Witness for C4: a length-1 array against a length-0 array errors
with the arity-mismatch `UnificationError`; two length-1 arrays unify
element-wise. -/
theorem c4_witness :
    unifyTypes 1 emptyU (.tArr [.tConst "Num"]) (.tArr []) 0 =
      .error (.sizeMismatch [.tConst "Num"] []) ∧
    unifyTypes 1 emptyU (.tArr [.tConst "Num"]) (.tArr [.tConst "Num"]) 0 =
      (unifyElems 0 emptyU [(.tConst "Num", .tConst "Num")] 1).map
        (fun r => (Ty.tArr r.1, r.2)) :=
  ⟨c4_unifyTypes_arrays.1 0 emptyU _ _ 0 (by decide),
   c4_unifyTypes_arrays.2 0 emptyU _ _ 0 rfl⟩


/-- `_chooseBestUnifier` can only fail through its recursive unification
call; in particular it never fails with an `InvalidTypeError` if the
recursion does not. -/
theorem chooseBest_no_invalid
    (recur : UState → Ty → Ty → Nat → Except Err (Ty × UState))
    (hrec : ∀ s t1 t2 d m, recur s t1 t2 d ≠ .error (.invalidType m)) :
    ∀ s t1 t2 d m, chooseBestWith recur s t1 t2 d ≠ .error (.invalidType m) := by
  intro s t1 t2 d m
  unfold chooseBestWith
  split
  · simp
  · simp
  · simp
  · exact hrec _ _ _ _ _

/-- `_updateUnifier` can only fail through `_chooseBestUnifier`. -/
theorem updateUnifier_no_invalid
    (recur : UState → Ty → Ty → Nat → Except Err (Ty × UState))
    (hrec : ∀ s t1 t2 d m, recur s t1 t2 d ≠ .error (.invalidType m)) :
    ∀ s a t d m, updateUnifierWith recur s a t d ≠ .error (.invalidType m) := by
  intro s a t d m
  unfold updateUnifierWith
  split
  rename_i uid s1 heq1
  split
  · rename_i e heq
    intro h
    injection h with h2
    exact chooseBest_no_invalid recur hrec _ _ _ _ m (h2 ▸ heq)
  · simp

/-- The element loop fails only through the element unifications or with
the "Missing type expression" error, never with an `InvalidTypeError`. -/
theorem zipWithState_no_invalid
    (f : UState → Ty → Ty → Except Err (Ty × UState))
    (hf : ∀ s x y m, f s x y ≠ .error (.invalidType m)) :
    ∀ l1 l2 s m, zipWithState f s l1 l2 ≠ .error (.invalidType m) := by
  intro l1
  induction l1 with
  | nil =>
    intro l2 s m
    cases l2 <;> simp [zipWithState]
  | cons x xs ih =>
    intro l2 s m
    cases l2 with
    | nil => simp [zipWithState]
    | cons y ys =>
      simp only [zipWithState]
      split
      next e heq =>
        intro h
        injection h with h2
        exact hf _ _ _ m (h2 ▸ heq)
      next t s2 heq =>
        split
        next e heq2 =>
          intro h
          injection h with h2
          exact ih ys s2 m (h2 ▸ heq2)
        next => simp

/-- `unifyTypes` never raises an `InvalidTypeError`: its error outcomes
are the unification errors (and the fuel sentinel). -/
theorem unifyTypes_no_invalid :
    ∀ n s t1 t2 d m, unifyTypes n s t1 t2 d ≠ .error (.invalidType m) := by
  intro n
  induction n with
  | zero =>
    intro s t1 t2 d m
    simp [unifyTypes]
  | succ k ih =>
    intro s t1 t2 d m
    cases t1 with
    | tVar a =>
      simp only [unifyTypes]
      exact updateUnifier_no_invalid _
        (fun s2 u1 u2 dd mm => ih s2 u1 u2 dd mm) s a t2 d m
    | tConst a =>
      cases t2 with
      | tVar b =>
        simp only [unifyTypes]
        exact updateUnifier_no_invalid _
          (fun s2 u1 u2 dd mm => ih s2 u1 u2 dd mm) s b (.tConst a) d m
      | tConst b =>
        simp only [unifyTypes]
        split <;> simp
      | tArr l => simp [unifyTypes]
    | tArr l1 =>
      cases t2 with
      | tVar b =>
        simp only [unifyTypes]
        exact updateUnifier_no_invalid _
          (fun s2 u1 u2 dd mm => ih s2 u1 u2 dd mm) s b (.tArr l1) d m
      | tConst b => simp [unifyTypes]
      | tArr l2 =>
        simp only [unifyTypes]
        split
        · simp
        · split
          next e heq =>
            intro h
            injection h with h2
            exact zipWithState_no_invalid _
              (fun s2 x y mm => ih s2 x y (d + 1) mm) l1 l2 s m (h2 ▸ heq)
          next => simp


/-- A type passing `isFunctionType` is exactly a 3-element array with
the `->` constant in the middle. -/
theorem isFunctionType_shape {t : Ty} (h : isFunctionType t = true) :
    ∃ a b, t = .tArr [a, .tConst "->", b] := by
  match t, h with
  | .tArr [a, .tConst n, b], h =>
    simp only [isFunctionType, decide_eq_true_eq] at h
    exact ⟨a, b, by rw [h]⟩

/-- Renaming variables preserves the function-type shape (the middle
element is a constant, which renaming leaves unchanged). -/
theorem isFunctionType_mapVars (f : String → String) (t : Ty) :
    isFunctionType (mapVars f t) = isFunctionType t := by
  match t with
  | .tVar n => rfl
  | .tConst n => rfl
  | .tArr [] => rfl
  | .tArr [a] => rfl
  | .tArr [a, b] => cases b <;> rfl
  | .tArr [a, b, c] =>
    cases b <;>
      simp [mapVars, mapVarsList, isFunctionType]
  | .tArr (a :: b :: c :: d :: rest) =>
    simp [mapVars, mapVarsList, isFunctionType]

/-- C7: `functionInput`/`functionOutput` succeed exactly on types
satisfying `isFunctionType` (a 3-element array with the `->` constant in
the middle), returning the first and third element; and
`composeFunctions` raises an `InvalidTypeError` exactly when `f` or `g`
fails the predicate — the checks run before any unification, and no
later stage of a composition can produce that error kind. -/
theorem c7_function_accessors_and_compose_guard :
    (∀ t : Ty, (functionInput t).isOk = isFunctionType t ∧
      (functionOutput t).isOk = isFunctionType t) ∧
    (∀ (a mid b : Ty), isFunctionType (.tArr [a, mid, b]) = true →
      functionInput (.tArr [a, mid, b]) = .ok a ∧
      functionOutput (.tArr [a, mid, b]) = .ok b) ∧
    (∀ (fuel : Nat) (f g : Ty), isFunctionType f = false →
      composeFunctions fuel f g =
        .error (.invalidType "Expected a function type for f")) ∧
    (∀ (fuel : Nat) (f g : Ty), isFunctionType f = true →
      isFunctionType g = false →
      composeFunctions fuel f g =
        .error (.invalidType "Expected a function type for g")) ∧
    (∀ (fuel : Nat) (f g : Ty) (m : String),
      composeFunctions fuel f g = .error (.invalidType m) →
      isFunctionType f = false ∨ isFunctionType g = false) := by
  refine ⟨?_, ?_, ?_, ?_, ?_⟩
  · intro t
    by_cases h : isFunctionType t = true
    · obtain ⟨a, b, rfl⟩ := isFunctionType_shape h
      simp [functionInput, functionOutput, h, Except.isOk, Except.toBool]
    · simp only [Bool.not_eq_true] at h
      simp [functionInput, functionOutput, h, Except.isOk, Except.toBool]
  · intro a mid b h
    obtain ⟨a2, b2, heq⟩ := isFunctionType_shape h
    injection heq with h1
    injection h1 with ha hrest
    injection hrest with hm hrest2
    injection hrest2 with hb
    subst ha; subst hm; subst hb
    simp [functionInput, functionOutput, h]
  · intro fuel f g hf
    simp [composeFunctions, hf]
  · intro fuel f g hf hg
    simp [composeFunctions, hf, hg]
  · intro fuel f g m h
    by_cases hf : isFunctionType f = true
    · by_cases hg : isFunctionType g = true
      · exfalso
        obtain ⟨fa, fb, hfe⟩ := isFunctionType_shape hf
        obtain ⟨ga, gb, hge⟩ := isFunctionType_shape hg
        rw [composeFunctions, if_neg (by simp [hf]), if_neg (by simp [hg])]
          at h
        rw [hfe, hge] at h
        simp [generateFreshNames, mapVars, mapVarsList, functionInput,
          functionOutput, isFunctionType, ebind_ok] at h
        cases hu : unifyTypes fuel emptyU
            (mapVars (fun n => n ++ "$" ++ Nat.repr 0) fb)
            (mapVars (fun n => n ++ "$" ++ Nat.repr 1) ga) 0 with
        | error e =>
          rw [hu] at h
          have h2 : (Except.error e : Except Err Ty) =
              Except.error (Err.invalidType m) := h
          injection h2 with h3
          exact unifyTypes_no_invalid fuel emptyU _ _ 0 m (h3 ▸ hu)
        | ok r =>
          rw [hu] at h
          exact Except.noConfusion
            (show (Except.ok _ : Except Err Ty) = Except.error _ from h)
      · simp only [Bool.not_eq_true] at hg
        exact Or.inr hg
    · simp only [Bool.not_eq_true] at hf
      exact Or.inl hf

/-- Witness for C7: the accessor equations on a concrete function type,
the guard errors on a concrete non-function argument, and the reverse
direction at a concrete invalid composition. -/
theorem c7_witness :
    (functionInput (functionType (.tVar "x") (.tVar "y")) = .ok (.tVar "x") ∧
      functionOutput (functionType (.tVar "x") (.tVar "y")) =
        .ok (.tVar "y")) ∧
    composeFunctions 5 (.tConst "Num") dupType =
      .error (.invalidType "Expected a function type for f") ∧
    composeFunctions 5 dupType (.tConst "Num") =
      .error (.invalidType "Expected a function type for g") ∧
    (isFunctionType (.tConst "Num") = false ∨
      isFunctionType dupType = false) :=
  ⟨c7_function_accessors_and_compose_guard.2.1 _ _ _ rfl,
   c7_function_accessors_and_compose_guard.2.2.1 5 _ dupType rfl,
   c7_function_accessors_and_compose_guard.2.2.2.1 5 dupType _ rfl rfl,
   c7_function_accessors_and_compose_guard.2.2.2.2 5 (.tConst "Num") dupType
     "Expected a function type for f"
     (c7_function_accessors_and_compose_guard.2.2.1 5 _ dupType rfl)⟩


mutual

/-- Stripping a name from all schemes leaves `typeVars` unchanged. -/
theorem varsA_stripName (x : String) (a : ATy) :
    varsA (stripName x a) = varsA a := by
  match a with
  | .aVar n => rfl
  | .aConst n => rfl
  | .aArr l d =>
    show varsAList (stripNameList x l) = varsAList l
    exact varsAList_stripNameList x l

/-- `varsA_stripName` over a child list. -/
theorem varsAList_stripNameList (x : String) (l : List ATy) :
    varsAList (stripNameList x l) = varsAList l := by
  match l with
  | [] => rfl
  | t :: ts =>
    show varsA (stripName x t) ++ varsAList (stripNameList x ts) =
      varsA t ++ varsAList ts
    rw [varsA_stripName x t, varsAList_stripNameList x ts]

end

mutual

/-- Every node of a stripped tree is the stripped form of a node of the
original tree. -/
theorem allNodes_stripName (y : String) (a : ATy) :
    ∀ m ∈ allNodes (stripName y a), ∃ m0 ∈ allNodes a, m = stripName y m0 := by
  match a with
  | .aVar n =>
    intro m hm
    exact ⟨.aVar n, by simp [allNodes], by simpa [allNodes, stripName] using hm⟩
  | .aConst n =>
    intro m hm
    exact ⟨.aConst n, by simp [allNodes],
      by simpa [allNodes, stripName] using hm⟩
  | .aArr l d =>
    intro m hm
    rw [show stripName y (.aArr l d) =
      .aArr (stripNameList y l) (d.filter (fun z => z ≠ y)) from rfl] at hm
    rw [show allNodes (.aArr (stripNameList y l) (d.filter (fun z => z ≠ y))) =
      .aArr (stripNameList y l) (d.filter (fun z => z ≠ y)) ::
        allNodesList (stripNameList y l) from rfl] at hm
    rcases List.mem_cons.mp hm with h | h
    · exact ⟨.aArr l d, by simp [allNodes], by rw [h]; rfl⟩
    · obtain ⟨m0, hm0, hs⟩ := allNodesList_stripNameList y l m h
      exact ⟨m0, by simp [allNodes, List.mem_cons_of_mem, hm0], hs⟩

/-- `allNodes_stripName` over a child list. -/
theorem allNodesList_stripNameList (y : String) (l : List ATy) :
    ∀ m ∈ allNodesList (stripNameList y l),
      ∃ m0 ∈ allNodesList l, m = stripName y m0 := by
  match l with
  | [] => intro m hm; simp [allNodesList, stripNameList] at hm
  | t :: ts =>
    intro m hm
    rw [show stripNameList y (t :: ts) =
      stripName y t :: stripNameList y ts from rfl] at hm
    rw [show allNodesList (stripName y t :: stripNameList y ts) =
      allNodes (stripName y t) ++ allNodesList (stripNameList y ts)
      from rfl] at hm
    rcases List.mem_append.mp hm with h | h
    · obtain ⟨m0, hm0, hs⟩ := allNodes_stripName y t m h
      refine ⟨m0, ?_, hs⟩
      show m0 ∈ allNodes t ++ allNodesList ts
      exact List.mem_append.mpr (Or.inl hm0)
    · obtain ⟨m0, hm0, hs⟩ := allNodesList_stripNameList y ts m h
      refine ⟨m0, ?_, hs⟩
      show m0 ∈ allNodes t ++ allNodesList ts
      exact List.mem_append.mpr (Or.inr hm0)

end

/-- Stripping shrinks a node's declaration list. -/
theorem rootDecls_stripName_subset (y : String) (m0 : ATy) :
    ∀ x ∈ rootDecls (stripName y m0), x ∈ rootDecls m0 := by
  match m0 with
  | .aVar n => intro x hx; exact hx
  | .aConst n => intro x hx; exact hx
  | .aArr l d =>
    intro x hx
    exact List.mem_of_mem_filter hx

/-- After stripping `x`, no node declares `x`. -/
theorem rootDecls_stripName_not_mem (x : String) (m0 : ATy) :
    x ∉ rootDecls (stripName x m0) := by
  match m0 with
  | .aVar n => simp [stripName, rootDecls]
  | .aConst n => simp [stripName, rootDecls]
  | .aArr l d =>
    show x ∉ d.filter (fun z => z ≠ x)
    intro hx
    have := List.of_mem_filter hx
    simp at this

/-- `DeclsOk` survives stripping a name everywhere. -/
theorem declsOk_stripName (y : String) (a : ATy) (h : DeclsOk a) :
    DeclsOk (stripName y a) := by
  intro m hm x hx
  obtain ⟨m0, hm0, rfl⟩ := allNodes_stripName y a m hm
  rw [varsA_stripName]
  exact h m0 hm0 x (rootDecls_stripName_subset y m0 x hx)

/-- `DeclsOk` survives a reassignment whose name occurs in the
children's `typeVars`. -/
theorem declsOk_reassignRoot (x : String) (l : List ATy) (d : List String)
    (hx : x ∈ varsAList l) (h : DeclsOk (.aArr l d)) :
    DeclsOk (reassignRoot x (.aArr l d)) := by
  intro m hm z hz
  rw [show reassignRoot x (.aArr l d) =
    .aArr (stripNameList x l) ((d.filter (fun y => y ≠ x)) ++ [x])
    from rfl] at hm
  rcases List.mem_cons.mp hm with hroot | hunder
  · subst hroot
    show z ∈ varsAList (stripNameList x l)
    rw [varsAList_stripNameList]
    rcases List.mem_append.mp hz with h1 | h1
    · have h2 : z ∈ d := List.mem_of_mem_filter h1
      have := h (.aArr l d) (by simp [allNodes]) z h2
      exact this
    · simp at h1
      subst h1
      exact hx
  · obtain ⟨m0, hm0, rfl⟩ := allNodesList_stripNameList x l m hunder
    rw [varsA_stripName]
    exact h m0 (List.mem_cons_of_mem _ hm0) z
      (rootDecls_stripName_subset x m0 z hz)

/-- `DeclsOk` survives the whole reassignment fold of the constructor. -/
theorem declsOk_foldl :
    ∀ (sched : List String) (l : List ATy) (d : List String),
      (∀ x ∈ sched, x ∈ varsAList l) → DeclsOk (.aArr l d) →
      DeclsOk (sched.foldl (fun a x => reassignRoot x a) (.aArr l d)) := by
  intro sched
  induction sched with
  | nil => intro l d _ h; exact h
  | cons x rest ih =>
    intro l d hv h
    rw [List.foldl_cons]
    rw [show reassignRoot x (.aArr l d) =
      .aArr (stripNameList x l) ((d.filter (fun y => y ≠ x)) ++ [x])
      from rfl]
    refine ih _ _ (fun y hy => ?_) ?_
    · rw [varsAList_stripNameList]
      exact hv y (List.mem_cons_of_mem _ hy)
    · have := declsOk_reassignRoot x l d (hv x (List.mem_cons_self x rest)) h
      rwa [show reassignRoot x (.aArr l d) =
        .aArr (stripNameList x l) ((d.filter (fun y => y ≠ x)) ++ [x])
        from rfl] at this

/-- Any variable of a child occurs in the concatenated `typeVars`. -/
theorem varsA_subset_varsAList {c : ATy} {cs : List ATy} (hc : c ∈ cs) :
    ∀ x ∈ varsA c, x ∈ varsAList cs := by
  induction cs with
  | nil => simp at hc
  | cons t ts ih =>
    intro x hx
    show x ∈ varsA t ++ varsAList ts
    rcases List.mem_cons.mp hc with h | h
    · subst h; exact List.mem_append.mpr (Or.inl hx)
    · exact List.mem_append.mpr (Or.inr (ih h x hx))

/-- Every scheduled name is a variable of some child. -/
theorem scheduleGo_vars (cs : List ATy) :
    ∀ (suffix : List ATy) (k : Nat), (∀ c ∈ suffix, c ∈ cs) →
      ∀ x ∈ scheduleGo cs k suffix, x ∈ varsAList cs := by
  intro suffix
  induction suffix with
  | nil => intro k _ x hx; simp [scheduleGo] at hx
  | cons c rest ih =>
    intro k hsub x hx
    have hc : c ∈ cs := hsub c (List.mem_cons_self c rest)
    have htail : ∀ c2 ∈ rest, c2 ∈ cs :=
      fun c2 hc2 => hsub c2 (List.mem_cons_of_mem _ hc2)
    cases c with
    | aVar n =>
      rw [show scheduleGo cs k (.aVar n :: rest) =
        [n] ++ scheduleGo cs (k + 1) rest from rfl] at hx
      rcases List.mem_append.mp hx with h | h
      · refine varsA_subset_varsAList hc x ?_
        simpa [varsA] using h
      · exact ih (k + 1) htail x h
    | aConst n =>
      rw [show scheduleGo cs k (.aConst n :: rest) =
        scheduleGo cs (k + 1) rest from rfl] at hx
      exact ih (k + 1) htail x hx
    | aArr l2 d2 =>
      rw [show scheduleGo cs k (.aArr l2 d2 :: rest) =
        ((varsA (.aArr l2 d2)).filter fun y => usedElsewhere cs y k)
        ++ scheduleGo cs (k + 1) rest from rfl] at hx
      rcases List.mem_append.mp hx with h | h
      · exact varsA_subset_varsAList hc x (List.mem_of_mem_filter h)
      · exact ih (k + 1) htail x h

mutual

/-- Scheme resolution preserves the declaration invariant on every
constructed array. -/
theorem declsOk_annotate (t : Ty) : DeclsOk (annotate t) := by
  match t with
  | .tVar n =>
    intro m hm x hx
    have hmv : m = .aVar n := by simpa [annotate, allNodes] using hm
    subst hmv
    simp [rootDecls] at hx
  | .tConst n =>
    intro m hm x hx
    have hmv : m = .aConst n := by simpa [annotate, allNodes] using hm
    subst hmv
    simp [rootDecls] at hx
  | .tArr l =>
    show DeclsOk (mkArr (annotateList l))
    unfold mkArr
    refine declsOk_foldl (schedule (annotateList l)) (annotateList l) []
      (fun x hx => scheduleGo_vars (annotateList l) (annotateList l) 0
        (fun c hc => hc) x hx) ?_
    intro m hm x hx
    rcases List.mem_cons.mp hm with hroot | hunder
    · subst hroot
      simp [rootDecls] at hx
    · exact declsOk_annotateList l m hunder x hx

/-- `declsOk_annotate` over a child list. -/
theorem declsOk_annotateList (l : List Ty) :
    ∀ m ∈ allNodesList (annotateList l), ∀ x ∈ rootDecls m, x ∈ varsA m := by
  match l with
  | [] => intro m hm; simp [annotateList, allNodesList] at hm
  | t :: ts =>
    intro m hm
    rw [show allNodesList (annotateList (t :: ts)) =
      allNodes (annotate t) ++ allNodesList (annotateList ts) from rfl] at hm
    rcases List.mem_append.mp hm with h | h
    · exact declsOk_annotate t m h
    · exact declsOk_annotateList ts m h

end

/-- C9: scheme resolution never fails — for every tree built from the
type constructors, every constructed `TypeArray`'s
`typeVarDeclarations` names occur among its `typeVars`, so the
constructor's internal validation branch ("Internal error: type scheme
references a variable that is not marked as referenced ...") is
unreachable. -/
theorem c9_scheme_validation_unreachable (t : Ty) :
    schemeConsistent (annotate t) = true := by
  unfold schemeConsistent
  rw [List.all_eq_true]
  intro m hm
  rw [List.all_eq_true]
  intro x hx
  simpa using declsOk_annotate t m hm x hx


/-- After stripping `x` from a child list, no node under it declares
`x`. -/
theorem under_strip_not_mem (x : String) (l : List ATy) :
    ∀ m ∈ allNodesList (stripNameList x l), x ∉ rootDecls m := by
  intro m hm
  obtain ⟨m0, _, rfl⟩ := allNodesList_stripNameList x l m hm
  exact rootDecls_stripName_not_mem x m0

/-- `_reassignAllVarsToScheme(x, root)` makes the root own `x`. -/
theorem ownsAtRoot_reassign_self (x : String) (l : List ATy)
    (d : List String) : OwnsAtRoot x (reassignRoot x (.aArr l d)) := by
  constructor
  · show x ∈ (d.filter (fun y => y ≠ x)) ++ [x]
    simp
  · show ∀ m ∈ allNodesList (stripNameList x l), x ∉ rootDecls m
    exact under_strip_not_mem x l

/-- Reassigning a different name preserves root ownership of `x`. -/
theorem ownsAtRoot_reassign_other {x y : String} (hxy : x ≠ y)
    (l : List ATy) (d : List String) (h : OwnsAtRoot x (.aArr l d)) :
    OwnsAtRoot x (reassignRoot y (.aArr l d)) := by
  obtain ⟨hroot, hunder⟩ := h
  constructor
  · show x ∈ (d.filter (fun z => z ≠ y)) ++ [y]
    refine List.mem_append.mpr (Or.inl ?_)
    refine List.mem_filter.mpr ⟨hroot, by simpa using hxy⟩
  · show ∀ m ∈ allNodesList (stripNameList y l), x ∉ rootDecls m
    intro m hm
    obtain ⟨m0, hm0, rfl⟩ := allNodesList_stripNameList y l m hm
    intro hx
    exact hunder m0 hm0 (rootDecls_stripName_subset y m0 x hx)

/-- Root ownership of `x` survives any further reassignment fold. -/
theorem ownsAtRoot_foldl (x : String) :
    ∀ (sched : List String) (l : List ATy) (d : List String),
      OwnsAtRoot x (.aArr l d) →
      OwnsAtRoot x (sched.foldl (fun a y => reassignRoot y a) (.aArr l d)) := by
  intro sched
  induction sched with
  | nil => intro l d h; exact h
  | cons y rest ih =>
    intro l d h
    rw [List.foldl_cons]
    rw [show reassignRoot y (.aArr l d) =
      .aArr (stripNameList y l) ((d.filter (fun z => z ≠ y)) ++ [y])
      from rfl]
    by_cases hxy : x = y
    · subst hxy
      have h2 := ownsAtRoot_reassign_self x l d
      rw [show reassignRoot x (.aArr l d) =
        .aArr (stripNameList x l) ((d.filter (fun z => z ≠ x)) ++ [x])
        from rfl] at h2
      exact ih _ _ h2
    · have h2 := ownsAtRoot_reassign_other hxy l d h
      rw [show reassignRoot y (.aArr l d) =
        .aArr (stripNameList y l) ((d.filter (fun z => z ≠ y)) ++ [y])
        from rfl] at h2
      exact ih _ _ h2

/-- A scheduled name ends up owned by the root of the fold. -/
theorem ownsAtRoot_foldl_of_mem (x : String) :
    ∀ (sched : List String) (l : List ATy) (d : List String), x ∈ sched →
      OwnsAtRoot x (sched.foldl (fun a y => reassignRoot y a) (.aArr l d)) := by
  intro sched
  induction sched with
  | nil => intro l d h; simp at h
  | cons y rest ih =>
    intro l d hmem
    rw [List.foldl_cons]
    rw [show reassignRoot y (.aArr l d) =
      .aArr (stripNameList y l) ((d.filter (fun z => z ≠ y)) ++ [y])
      from rfl]
    by_cases hxy : x = y
    · subst hxy
      have h2 := ownsAtRoot_reassign_self x l d
      rw [show reassignRoot x (.aArr l d) =
        .aArr (stripNameList x l) ((d.filter (fun z => z ≠ x)) ++ [x])
        from rfl] at h2
      exact ownsAtRoot_foldl x rest _ _ h2
    · have hmem2 : x ∈ rest := by
        rcases List.mem_cons.mp hmem with h | h
        · exact absurd h hxy
        · exact h
      exact ih _ _ hmem2

/-- If `x` occurs in the child at a position other than `i`, the
`usedElsewhere` scan finds it. -/
theorem usedElsewhereGo_true (x : String) (i : Nat) :
    ∀ (suffix : List ATy) (k j : Nat) (hj : j < suffix.length),
      k + j ≠ i → x ∈ varsA suffix[j] →
      usedElsewhereGo x i k suffix = true := by
  intro suffix
  induction suffix with
  | nil => intro k j hj; simp at hj
  | cons c rest ih =>
    intro k j hj hne hmem
    cases j with
    | zero =>
      simp only [List.getElem_cons_zero] at hmem
      unfold usedElsewhereGo
      refine Bool.or_eq_true_iff.mpr (Or.inl ?_)
      refine Bool.and_eq_true_iff.mpr ⟨?_, ?_⟩
      · simpa using (by omega : k ≠ i)
      · simpa using hmem
    | succ j2 =>
      simp only [List.getElem_cons_succ] at hmem
      unfold usedElsewhereGo
      refine Bool.or_eq_true_iff.mpr (Or.inr ?_)
      exact ih (k + 1) j2 (by simpa using Nat.lt_of_succ_lt_succ hj)
        (by omega) hmem

/-- A variable of the child at position `p` that the `usedElsewhere`
test accepts is scheduled. -/
theorem scheduleGo_mem (cs : List ATy) (x : String) :
    ∀ (suffix : List ATy) (k p : Nat) (hp : p < suffix.length),
      x ∈ varsA suffix[p] → usedElsewhere cs x (k + p) = true →
      x ∈ scheduleGo cs k suffix := by
  intro suffix
  induction suffix with
  | nil => intro k p hp; simp at hp
  | cons c rest ih =>
    intro k p hp hmem hue
    cases p with
    | zero =>
      simp only [List.getElem_cons_zero] at hmem
      cases c with
      | aVar n =>
        rw [show scheduleGo cs k (.aVar n :: rest) =
          [n] ++ scheduleGo cs (k + 1) rest from rfl]
        refine List.mem_append.mpr (Or.inl ?_)
        simpa [varsA] using hmem
      | aConst n => simp [varsA, varsAList] at hmem
      | aArr l2 d2 =>
        rw [show scheduleGo cs k (.aArr l2 d2 :: rest) =
          ((varsA (.aArr l2 d2)).filter fun y => usedElsewhere cs y k)
          ++ scheduleGo cs (k + 1) rest from rfl]
        refine List.mem_append.mpr (Or.inl ?_)
        refine List.mem_filter.mpr ⟨hmem, ?_⟩
        simpa using hue
    | succ p2 =>
      simp only [List.getElem_cons_succ] at hmem
      have hrec := ih (k + 1) p2 (by simpa using Nat.lt_of_succ_lt_succ hp)
        hmem (by rw [show k + 1 + p2 = k + (p2 + 1) from by omega]; exact hue)
      cases c with
      | aVar n =>
        rw [show scheduleGo cs k (.aVar n :: rest) =
          [n] ++ scheduleGo cs (k + 1) rest from rfl]
        exact List.mem_append.mpr (Or.inr hrec)
      | aConst n =>
        rw [show scheduleGo cs k (.aConst n :: rest) =
          scheduleGo cs (k + 1) rest from rfl]
        exact hrec
      | aArr l2 d2 =>
        rw [show scheduleGo cs k (.aArr l2 d2 :: rest) =
          ((varsA (.aArr l2 d2)).filter fun y => usedElsewhere cs y k)
          ++ scheduleGo cs (k + 1) rest from rfl]
        exact List.mem_append.mpr (Or.inr hrec)

/-- The reassignment fold does not change `typeVars`. -/
theorem varsA_foldl_reassign :
    ∀ (sched : List String) (l : List ATy) (d : List String),
      varsA (sched.foldl (fun a y => reassignRoot y a) (.aArr l d)) =
        varsAList l := by
  intro sched
  induction sched with
  | nil => intro l d; rfl
  | cons y rest ih =>
    intro l d
    rw [List.foldl_cons]
    rw [show reassignRoot y (.aArr l d) =
      .aArr (stripNameList y l) ((d.filter (fun z => z ≠ y)) ++ [y])
      from rfl]
    rw [ih, varsAList_stripNameList]

mutual

/-- Scheme decoration does not change `typeVars`. -/
theorem varsA_annotate (t : Ty) : varsA (annotate t) = varsOf t := by
  match t with
  | .tVar n => rfl
  | .tConst n => rfl
  | .tArr l =>
    show varsA (mkArr (annotateList l)) = varsOfList l
    unfold mkArr
    rw [varsA_foldl_reassign]
    exact varsAList_annotateList l

/-- `varsA_annotate` over a child list. -/
theorem varsAList_annotateList (l : List Ty) :
    varsAList (annotateList l) = varsOfList l := by
  match l with
  | [] => rfl
  | t :: ts =>
    show varsA (annotate t) ++ varsAList (annotateList ts) =
      varsOf t ++ varsOfList ts
    rw [varsA_annotate t, varsAList_annotateList ts]

end

/-- `annotateList` is the pointwise decoration. -/
theorem annotateList_eq_map (l : List Ty) : annotateList l = l.map annotate := by
  induction l with
  | nil => rfl
  | cons t ts ih =>
    show annotate t :: annotateList ts = annotate t :: ts.map annotate
    rw [ih]

/-- C5: in a constructed `TypeArray`, a variable that appears in child
`i` (not the last child) and also in another child `j` is owned by the
array just constructed: it is listed in the array's
`typeVarDeclarations` and in no inner node's (its scheme is this
array). -/
theorem c5_shared_child_vars_owned_by_parent
    (cs : List Ty) (i j : Nat) (x : String)
    (hi : i + 1 < cs.length) (hj : j < cs.length) (hij : i ≠ j)
    (hxi : x ∈ varsOf cs[i]) (hxj : x ∈ varsOf cs[j]) :
    OwnsAtRoot x (annotate (.tArr cs)) := by
  have hi2 : i < cs.length := by omega
  have hlen : (annotateList cs).length = cs.length := by
    rw [annotateList_eq_map, List.length_map]
  have hgi : (annotateList cs)[i] = annotate cs[i] := by
    simp [annotateList_eq_map]
  have hgj : (annotateList cs)[j] = annotate cs[j] := by
    simp [annotateList_eq_map]
  have hxi2 : x ∈ varsA (annotateList cs)[i] := by
    rw [hgi, varsA_annotate]
    exact hxi
  have hxj2 : x ∈ varsA (annotateList cs)[j] := by
    rw [hgj, varsA_annotate]
    exact hxj
  have hue : usedElsewhere (annotateList cs) x i = true := by
    unfold usedElsewhere
    exact usedElsewhereGo_true x i (annotateList cs) 0 j (by omega)
      (by omega) hxj2
  have hsched : x ∈ schedule (annotateList cs) := by
    unfold schedule
    exact scheduleGo_mem (annotateList cs) x (annotateList cs) 0 i
      (by omega) hxi2 (by simpa using hue)
  show OwnsAtRoot x (mkArr (annotateList cs))
  unfold mkArr
  exact ownsAtRoot_foldl_of_mem x (schedule (annotateList cs))
    (annotateList cs) [] hsched

/-- Witness for C5: in `((x y) (x z))` the shared variable `x` is owned
by the outer pair, not by either inner pair. -/
theorem c5_witness :
    OwnsAtRoot "x" (annotate (.tArr [.tArr [.tVar "x", .tVar "y"],
      .tArr [.tVar "x", .tVar "z"], .tVar "w"])) :=
  c5_shared_child_vars_owned_by_parent
    [.tArr [.tVar "x", .tVar "y"], .tArr [.tVar "x", .tVar "z"], .tVar "w"]
    0 1 "x" (by decide) (by decide) (by decide)
    (by simp [varsOf, varsOfList]) (by simp [varsOf, varsOfList])


/-- Unfolding `digitsRec` on a single digit. -/
theorem digitsRec_small {n : Nat} (h : n / 10 = 0) :
    digitsRec n = [Nat.digitChar (n % 10)] := by
  rw [digitsRec, if_pos h]

/-- Unfolding `digitsRec` on a multi-digit number. -/
theorem digitsRec_big {n : Nat} (h : ¬ n / 10 = 0) :
    digitsRec n = digitsRec (n / 10) ++ [Nat.digitChar (n % 10)] := by
  rw [digitsRec, if_neg h]

/-- `Nat.toDigitsCore` computes `digitsRec` when given enough fuel. -/
theorem toDigitsCore_eq_digitsRec :
    ∀ (fuel n : Nat) (ds : List Char), n < fuel →
      Nat.toDigitsCore 10 fuel n ds = digitsRec n ++ ds := by
  intro fuel
  induction fuel with
  | zero => intro n ds h; omega
  | succ f ih =>
    intro n ds h
    by_cases h0 : n / 10 = 0
    · rw [show Nat.toDigitsCore 10 (f + 1) n ds =
        Nat.digitChar (n % 10) :: ds from by
          simp [Nat.toDigitsCore, h0]]
      rw [digitsRec_small h0]
      rfl
    · rw [show Nat.toDigitsCore 10 (f + 1) n ds =
        Nat.toDigitsCore 10 f (n / 10) (Nat.digitChar (n % 10) :: ds) from by
          simp [Nat.toDigitsCore, h0]]
      rw [ih (n / 10) (Nat.digitChar (n % 10) :: ds) (by omega)]
      rw [digitsRec_big h0, List.append_assoc]
      rfl

/-- `Nat.repr` is the string of `digitsRec`. -/
theorem repr_eq_digitsRec (n : Nat) :
    Nat.repr n = List.asString (digitsRec n) := by
  show List.asString (Nat.toDigitsCore 10 (n + 1) n []) = _
  rw [toDigitsCore_eq_digitsRec (n + 1) n [] (by omega), List.append_nil]

/-- `Nat.digitChar` distinguishes decimal digits. -/
theorem digitChar_inj_lt {a b : Nat} (ha : a < 10) (hb : b < 10)
    (h : Nat.digitChar a = Nat.digitChar b) : a = b := by
  have key : ∀ (x y : Fin 10),
      Nat.digitChar x.val = Nat.digitChar y.val → x = y := by decide
  exact congrArg Fin.val (key ⟨a, ha⟩ ⟨b, hb⟩ h)

/-- `digitsRec` is never empty. -/
theorem digitsRec_ne_nil (n : Nat) : digitsRec n ≠ [] := by
  by_cases h0 : n / 10 = 0
  · rw [digitsRec_small h0]; simp
  · rw [digitsRec_big h0]; simp

/-- `digitsRec` is injective. -/
theorem digitsRec_inj : ∀ (m n : Nat), digitsRec m = digitsRec n → m = n := by
  intro m
  induction m using Nat.strong_induction_on with
  | _ m ih =>
    intro n h
    by_cases hm : m / 10 = 0 <;> by_cases hn : n / 10 = 0
    · rw [digitsRec_small hm, digitsRec_small hn] at h
      injection h with h1 _
      have := digitChar_inj_lt (by omega) (by omega) h1
      omega
    · rw [digitsRec_small hm, digitsRec_big hn] at h
      have hlen := congrArg List.length h
      simp only [List.length_singleton, List.length_append,
        List.length_cons] at hlen
      have hpos : 0 < (digitsRec (n / 10)).length :=
        List.length_pos.mpr (digitsRec_ne_nil (n / 10))
      omega
    · rw [digitsRec_big hm, digitsRec_small hn] at h
      have hlen := congrArg List.length h
      simp only [List.length_singleton, List.length_append,
        List.length_cons] at hlen
      have hpos : 0 < (digitsRec (m / 10)).length :=
        List.length_pos.mpr (digitsRec_ne_nil (m / 10))
      omega
    · rw [digitsRec_big hm, digitsRec_big hn] at h
      have hlen := congrArg List.length h
      simp only [List.length_singleton, List.length_append,
        List.length_cons] at hlen
      obtain ⟨h2, h3⟩ := List.append_inj h (by omega)
      have hdiv := ih (m / 10) (by omega) (n / 10) h2
      injection h3 with h4 _
      have hmod := digitChar_inj_lt (by omega) (by omega) h4
      omega

/-- `Nat.repr` is injective. -/
theorem nat_repr_inj {m n : Nat} (h : Nat.repr m = Nat.repr n) : m = n := by
  rw [repr_eq_digitsRec, repr_eq_digitsRec] at h
  refine digitsRec_inj m n ?_
  have h2 := congrArg String.data h
  simpa [List.asString] using h2

/-- Appending a fixed string on the right is injective. -/
theorem string_append_right_cancel {a b s : String} (h : a ++ s = b ++ s) :
    a = b := by
  have h2 := congrArg String.data h
  simp only [String.data_append] at h2
  exact String.ext (List.append_cancel_right h2)

/-- Prepending a fixed string is injective. -/
theorem string_append_left_cancel {s a b : String} (h : s ++ a = s ++ b) :
    a = b := by
  have h2 := congrArg String.data h
  simp only [String.data_append] at h2
  exact String.ext (List.append_cancel_left h2)


mutual

/-- Renaming maps the variable-occurrence sequence pointwise. -/
theorem varsOf_mapVars (f : String → String) (t : Ty) :
    varsOf (mapVars f t) = (varsOf t).map f := by
  match t with
  | .tVar n => rfl
  | .tConst n => rfl
  | .tArr l =>
    show varsOfList (mapVarsList f l) = (varsOfList l).map f
    exact varsOfList_mapVarsList f l

/-- `varsOf_mapVars` over a child list. -/
theorem varsOfList_mapVarsList (f : String → String) (l : List Ty) :
    varsOfList (mapVarsList f l) = (varsOfList l).map f := by
  match l with
  | [] => rfl
  | t :: ts =>
    show varsOf (mapVars f t) ++ varsOfList (mapVarsList f ts) = _
    rw [varsOf_mapVars f t, varsOfList_mapVarsList f ts,
      show varsOfList (t :: ts) = varsOf t ++ varsOfList ts from rfl,
      List.map_append]

end

mutual

/-- Two renamings compose. -/
theorem mapVars_comp (f g : String → String) (t : Ty) :
    mapVars g (mapVars f t) = mapVars (fun x => g (f x)) t := by
  match t with
  | .tVar n => rfl
  | .tConst n => rfl
  | .tArr l =>
    show Ty.tArr (mapVarsList g (mapVarsList f l)) = _
    rw [mapVarsList_comp f g l]
    rfl

/-- `mapVars_comp` over a child list. -/
theorem mapVarsList_comp (f g : String → String) (l : List Ty) :
    mapVarsList g (mapVarsList f l) = mapVarsList (fun x => g (f x)) l := by
  match l with
  | [] => rfl
  | t :: ts =>
    show mapVars g (mapVars f t) :: mapVarsList g (mapVarsList f ts) = _
    rw [mapVars_comp f g t, mapVarsList_comp f g ts]
    rfl

end

mutual

/-- Renamings agreeing on the occurring variables rename equally. -/
theorem mapVars_congr (f g : String → String) (t : Ty)
    (h : ∀ x ∈ varsOf t, f x = g x) : mapVars f t = mapVars g t := by
  match t with
  | .tVar n =>
    show Ty.tVar (f n) = Ty.tVar (g n)
    rw [h n (by simp [varsOf])]
  | .tConst n => rfl
  | .tArr l =>
    show Ty.tArr (mapVarsList f l) = Ty.tArr (mapVarsList g l)
    rw [mapVarsList_congr f g l h]

/-- `mapVars_congr` over a child list. -/
theorem mapVarsList_congr (f g : String → String) (l : List Ty)
    (h : ∀ x ∈ varsOfList l, f x = g x) :
    mapVarsList f l = mapVarsList g l := by
  match l with
  | [] => rfl
  | t :: ts =>
    show mapVars f t :: mapVarsList f ts = mapVars g t :: mapVarsList g ts
    rw [mapVars_congr f g t
      (fun x hx => h x (by
        show x ∈ varsOf t ++ varsOfList ts
        exact List.mem_append.mpr (Or.inl hx)))]
    rw [mapVarsList_congr f g ts
      (fun x hx => h x (by
        show x ∈ varsOf t ++ varsOfList ts
        exact List.mem_append.mpr (Or.inr hx)))]

end

/-- Membership in the deduplication accumulator-fold. -/
theorem mem_dedupAux :
    ∀ (l acc : List String) (x : String),
      x ∈ dedupAux acc l ↔ x ∈ acc ∨ x ∈ l := by
  intro l
  induction l with
  | nil => intro acc x; simp [dedupAux]
  | cons y ys ih =>
    intro acc x
    rw [show dedupAux acc (y :: ys) =
      dedupAux (if y ∈ acc then acc else acc ++ [y]) ys from rfl]
    rw [ih]
    by_cases hy : y ∈ acc
    · rw [if_pos hy]
      simp only [List.mem_cons]
      constructor
      · rintro (h | h)
        · exact Or.inl h
        · exact Or.inr (Or.inr h)
      · rintro (h | h | h)
        · exact Or.inl h
        · exact Or.inl (h ▸ hy)
        · exact Or.inr h
    · rw [if_neg hy]
      simp only [List.mem_append, List.mem_singleton, List.mem_cons]
      tauto

/-- Membership in `dedupFirst`. -/
theorem mem_dedupFirst (l : List String) (x : String) :
    x ∈ dedupFirst l ↔ x ∈ l := by
  rw [dedupFirst, mem_dedupAux]
  simp

/-- The deduplication fold commutes with an injective renaming. -/
theorem dedupAux_map (f : String → String) :
    ∀ (l acc : List String),
      (∀ x, (x ∈ acc ∨ x ∈ l) → ∀ y, (y ∈ acc ∨ y ∈ l) → f x = f y → x = y) →
      dedupAux (acc.map f) (l.map f) = (dedupAux acc l).map f := by
  intro l
  induction l with
  | nil => intro acc _; rfl
  | cons y ys ih =>
    intro acc hinj
    rw [show (y :: ys).map f = f y :: ys.map f from rfl]
    rw [show dedupAux (acc.map f) (f y :: ys.map f) =
      dedupAux (if f y ∈ acc.map f then acc.map f else acc.map f ++ [f y])
        (ys.map f) from rfl]
    rw [show dedupAux acc (y :: ys) =
      dedupAux (if y ∈ acc then acc else acc ++ [y]) ys from rfl]
    have hmem : (f y ∈ acc.map f) ↔ (y ∈ acc) := by
      constructor
      · intro h
        obtain ⟨a, ha, hfa⟩ := List.mem_map.mp h
        have : a = y := hinj a (Or.inl ha) y (Or.inr (by simp)) hfa
        exact this ▸ ha
      · intro h
        exact List.mem_map.mpr ⟨y, h, rfl⟩
    by_cases hy : y ∈ acc
    · rw [if_pos (hmem.mpr hy), if_pos hy]
      exact ih acc (fun x hx y2 hy2 => hinj x
        (by rcases hx with h | h; exact Or.inl h; exact Or.inr (by simp [h]))
        y2
        (by rcases hy2 with h | h; exact Or.inl h; exact Or.inr (by simp [h])))
    · rw [if_neg (fun h => hy (hmem.mp h)), if_neg hy]
      rw [show acc.map f ++ [f y] = (acc ++ [y]).map f from by
        rw [List.map_append]; rfl]
      exact ih (acc ++ [y]) (fun x hx y2 hy2 => hinj x
        (by
          rcases hx with h | h
          · rcases List.mem_append.mp h with h2 | h2
            · exact Or.inl h2
            · simp at h2; exact Or.inr (by simp [h2])
          · exact Or.inr (by simp [h]))
        y2
        (by
          rcases hy2 with h | h
          · rcases List.mem_append.mp h with h2 | h2
            · exact Or.inl h2
            · simp at h2; exact Or.inr (by simp [h2])
          · exact Or.inr (by simp [h])))

/-- First-occurrence position is stable under an injective renaming. -/
theorem idxOf_map (f : String → String) :
    ∀ (u : List String) (x : String),
      (∀ a, (a ∈ x :: u) → ∀ b, (b ∈ x :: u) → f a = f b → a = b) →
      idxOf (f x) (u.map f) = idxOf x u := by
  intro u
  induction u with
  | nil => intro x _; rfl
  | cons y ys ih =>
    intro x hinj
    rw [show (y :: ys).map f = f y :: ys.map f from rfl]
    show (if f y = f x then 0 else idxOf (f x) (ys.map f) + 1) =
      (if y = x then 0 else idxOf x ys + 1)
    by_cases hyx : y = x
    · rw [if_pos hyx, if_pos (by rw [hyx])]
    · rw [if_neg hyx, if_neg (fun h =>
        hyx (hinj y (by simp) x (by simp) h))]
      rw [ih x (fun a ha b hb => hinj a
        (by rcases List.mem_cons.mp ha with h | h; simp [h]; simp [h])
        b
        (by rcases List.mem_cons.mp hb with h | h; simp [h]; simp [h]))]

/-- Two members of a list at the same first-occurrence position are
equal. -/
theorem idxOf_inj_on :
    ∀ (u : List String) (x y : String), x ∈ u → y ∈ u →
      idxOf x u = idxOf y u → x = y := by
  intro u
  induction u with
  | nil => intro x y hx; simp at hx
  | cons z zs ih =>
    intro x y hx hy h
    show x = y
    by_cases hzx : z = x <;> by_cases hzy : z = y
    · rw [← hzx, hzy]
    · rw [show idxOf x (z :: zs) = 0 from by simp [idxOf, hzx]] at h
      rw [show idxOf y (z :: zs) = idxOf y zs + 1 from by
        simp [idxOf, hzy]] at h
      omega
    · rw [show idxOf y (z :: zs) = 0 from by simp [idxOf, hzy]] at h
      rw [show idxOf x (z :: zs) = idxOf x zs + 1 from by
        simp [idxOf, hzx]] at h
      omega
    · rw [show idxOf x (z :: zs) = idxOf x zs + 1 from by
        simp [idxOf, hzx]] at h
      rw [show idxOf y (z :: zs) = idxOf y zs + 1 from by
        simp [idxOf, hzy]] at h
      have hx2 : x ∈ zs := by
        rcases List.mem_cons.mp hx with h2 | h2
        · exact absurd h2.symm hzx
        · exact h2
      have hy2 : y ∈ zs := by
        rcases List.mem_cons.mp hy with h2 | h2
        · exact absurd h2.symm hzy
        · exact h2
      exact ih x y hx2 hy2 (by omega)

/-- The canonical renaming built from a sequence commutes with an
injective renaming of the sequence. -/
theorem canonOf_map (f : String → String) (seq : List String) (x : String)
    (hinj : ∀ a ∈ seq, ∀ b ∈ seq, f a = f b → a = b) (hx : x ∈ seq) :
    canonOf (seq.map f) (f x) = canonOf seq x := by
  unfold canonOf
  rw [show dedupFirst (seq.map f) = (dedupFirst seq).map f from by
    rw [dedupFirst, dedupFirst,
      show ([] : List String) = ([] : List String).map f from rfl]
    exact dedupAux_map f seq []
      (fun a ha b hb hab => hinj a (by tauto) b (by tauto) hab)]
  rw [idxOf_map f (dedupFirst seq) x
    (fun a ha b hb hab => hinj a
      (by
        rcases List.mem_cons.mp ha with h | h
        · exact h ▸ hx
        · exact (mem_dedupFirst seq a).mp h)
      b
      (by
        rcases List.mem_cons.mp hb with h | h
        · exact h ▸ hx
        · exact (mem_dedupFirst seq b).mp h)
      hab)]

/-- The canonical renaming is injective on the sequence it was built
from. -/
theorem canonOf_inj_on (seq : List String) :
    ∀ a ∈ seq, ∀ b ∈ seq, canonOf seq a = canonOf seq b → a = b := by
  intro a ha b hb h
  unfold canonOf at h
  have h2 := string_append_left_cancel h
  have h3 := nat_repr_inj h2
  exact idxOf_inj_on (dedupFirst seq) a b
    ((mem_dedupFirst seq a).mpr ha) ((mem_dedupFirst seq b).mpr hb) h3

/-- Normalization is invariant under any renaming injective on the
occurring variables. -/
theorem normalize_mapVars (f : String → String) (t : Ty)
    (hinj : ∀ a ∈ varsOf t, ∀ b ∈ varsOf t, f a = f b → a = b) :
    normalizeVarNames (mapVars f t) = normalizeVarNames t := by
  unfold normalizeVarNames
  rw [varsOf_mapVars, mapVars_comp]
  exact mapVars_congr _ _ t (fun x hx => canonOf_map f (varsOf t) x hinj hx)

/-- C6: renaming round-trips — `areTypesSame(t, normalizeVarNames(t))`
holds for every type, and freshening with any salt followed by
normalization reproduces the normalized form (even as identical trees,
hence identical renders). -/
theorem c6_normalize_roundtrip :
    (∀ t : Ty, areTypesSame t (normalizeVarNames t) = true) ∧
    (∀ (t : Ty) (id : Nat),
      render (normalizeVarNames (generateFreshNames t id)) =
        render (normalizeVarNames t)) := by
  constructor
  · intro t
    unfold areTypesSame
    rw [show normalizeVarNames (normalizeVarNames t) = normalizeVarNames t
      from normalize_mapVars (canonOf (varsOf t)) t (canonOf_inj_on _)]
    exact beq_self_eq_true _
  · intro t id
    rw [show normalizeVarNames (generateFreshNames t id) =
        normalizeVarNames t from
      normalize_mapVars _ t (fun a _ b _ h => by
        have h2 := string_append_right_cancel h
        exact string_append_right_cancel h2)]


/-! ### Frame lemmas for the heap model -/

theorem hget_hset_eq {α : Type} (l : List (Nat × α)) (k : Nat) (v : α) :
    hget (hset l k v) k = some v := by
  simp [hget, hset, List.lookup]

theorem hget_hset_ne {α : Type} (l : List (Nat × α)) (k k2 : Nat) (v : α)
    (hne : k2 ≠ k) : hget (hset l k v) k2 = hget l k2 := by
  have hb : (k2 == k) = false := beq_eq_false_iff_ne.mpr hne
  simp [hget, hset, List.lookup, hb]

theorem hget_mem {α : Type} :
    ∀ (l : List (Nat × α)) {k : Nat} {v : α},
      hget l k = some v → (k, v) ∈ l := by
  intro l
  induction l with
  | nil => intro k v h; simp [hget, List.lookup] at h
  | cons p ps ih =>
    intro k v h
    rcases p with ⟨k1, v1⟩
    cases hbk : (k == k1) with
    | true =>
      simp only [hget, List.lookup, hbk] at h
      have hk : k = k1 := beq_iff_eq.mp hbk
      have hv : v = v1 := by
        injection h with h2
        exact h2.symm
      simp [hk, hv]
    | false =>
      simp only [hget, List.lookup, hbk] at h
      exact List.mem_cons_of_mem _ (ih h)

theorem lookup_append_some {α β : Type} [BEq α] :
    ∀ (l1 l2 : List (α × β)) (k : α) (v : β),
      (l1 ++ l2).lookup k = some v →
      l1.lookup k = some v ∨ l2.lookup k = some v := by
  intro l1
  induction l1 with
  | nil => intro l2 k v h; exact Or.inr h
  | cons p ps ih =>
    intro l2 k v h
    rcases p with ⟨k1, v1⟩
    rw [List.cons_append] at h
    cases hbk : (k == k1) with
    | true =>
      simp only [List.lookup, hbk] at h ⊢
      exact Or.inl h
    | false =>
      simp only [List.lookup, hbk] at h ⊢
      exact ih l2 k v h

theorem FrameOK_refl (n : Nat) (h : Heap) : FrameOK n h h :=
  ⟨fun _ _ => rfl, fun _ _ => rfl, fun _ _ => rfl, fun _ _ hv => hv,
    Nat.le_refl _⟩

theorem FrameOK_trans {n : Nat} {h1 h2 h3 : Heap} (a : FrameOK n h1 h2)
    (b : FrameOK n h2 h3) : FrameOK n h1 h3 := by
  obtain ⟨a1, a2, a3, a4, a5⟩ := a
  obtain ⟨b1, b2, b3, b4, b5⟩ := b
  exact ⟨fun k hk => (b1 k hk).trans (a1 k hk),
    fun k hk => (b2 k hk).trans (a2 k hk),
    fun k hk => (b3 k hk).trans (a3 k hk),
    fun k v hv => b4 k v (a4 k v hv),
    Nat.le_trans a5 b5⟩

theorem StepOK_refl {n : Nat} {h : Heap} (hg : GoodH n h) : StepOK n h h :=
  ⟨FrameOK_refl n h, hg⟩

theorem StepOK_trans {n : Nat} {h1 h2 h3 : Heap} (a : StepOK n h1 h2)
    (b : StepOK n h2 h3) : StepOK n h1 h3 :=
  ⟨FrameOK_trans a.1 b.1, b.2⟩

theorem HighTree_mono {n : Nat} {h h2 : Heap} {id : Nat}
    (ht : HighTree n h id) (he : NExt h h2) : HighTree n h2 id := by
  induction ht with
  | var i s hi hl => exact .var i s hi (he _ _ hl)
  | const i s hi hl => exact .const i s hi (he _ _ hl)
  | arr i cs hi hl hc ih => exact .arr i cs hi (he _ _ hl) ih

theorem USHHigh_mono {n : Nat} {h h2 : Heap} {s : USH}
    (hu : USHHigh n h s) (he : NExt h h2) : USHHigh n h2 s :=
  fun rid uid hl => HighTree_mono (hu rid uid hl) he

theorem allocNode_step {n : Nat} {h : Heap} (nd : HNode) (hg : GoodH n h) :
    StepOK n h (allocNode h nd).2 := by
  obtain ⟨hn, hb, hs⟩ := hg
  refine ⟨⟨?_, fun _ _ => rfl, fun _ _ => rfl, ?_, Nat.le_succ _⟩,
    ?_, ?_, ?_⟩
  · intro k hk
    exact hget_hset_ne _ _ _ _ (by omega)
  · intro k v hv
    have hklt : k < h.next := hb _ (hget_mem _ hv)
    show hget (hset h.nodes h.next nd) k = some v
    rw [hget_hset_ne _ _ _ _ (by omega)]
    exact hv
  · show n ≤ h.next + 1
    omega
  · intro p hp
    show p.1 < h.next + 1
    rcases List.mem_cons.mp hp with h1 | h1
    · rw [h1]
      exact Nat.lt_succ_self _
    · exact Nat.lt_succ_of_lt (hb p h1)
  · intro v s hl hv
    exact hs v s hl hv

theorem allocNode_nodes_self (h : Heap) (nd : HNode) :
    hget (allocNode h nd).2.nodes h.next = some nd :=
  hget_hset_eq _ _ _


theorem travList_forall {P : Nat → Prop} (f : Nat → Option (List Nat)) :
    ∀ (cs : List Nat) (l : List Nat), travList f cs = some l →
      (∀ c ∈ cs, ∀ v, f c = some v → ∀ x ∈ v, P x) → ∀ x ∈ l, P x := by
  intro cs
  induction cs with
  | nil =>
    intro l h _ x hx
    simp only [travList] at h
    injection h with h2
    rw [← h2] at hx
    simp at hx
  | cons c cs ih =>
    intro l h hf x hx
    cases hc : f c with
    | none => simp [travList, hc] at h
    | some v =>
      cases hrest : travList f cs with
      | none => simp [travList, hc, hrest] at h
      | some vs =>
        simp only [travList, hc, hrest] at h
        injection h with h2
        rw [← h2] at hx
        rcases List.mem_append.mp hx with h3 | h3
        · exact hf c (by simp) v hc x h3
        · exact ih vs hrest (fun c2 hc2 => hf c2 (by simp [hc2])) x h3

theorem typeVarsH_high :
    ∀ (fuel : Nat) {n : Nat} {h : Heap} {id : Nat} {l : List Nat},
      HighTree n h id → typeVarsH fuel h id = some l → ∀ x ∈ l, n ≤ x := by
  intro fuel
  induction fuel with
  | zero => intro n h id l _ hl; simp [typeVarsH] at hl
  | succ fuel ih =>
    intro n h id l ht hl x hx
    cases ht with
    | var i s hi hn =>
      rw [show typeVarsH (fuel + 1) h id = some [id] from by
        simp [typeVarsH, hn]] at hl
      injection hl with h2
      rw [← h2] at hx
      simp at hx
      omega
    | const i s hi hn =>
      rw [show typeVarsH (fuel + 1) h id = some [] from by
        simp [typeVarsH, hn]] at hl
      injection hl with h2
      rw [← h2] at hx
      simp at hx
    | arr i cs hi hn hc =>
      rw [show typeVarsH (fuel + 1) h id = travList (typeVarsH fuel h) cs
        from by simp [typeVarsH, hn]] at hl
      exact travList_forall (typeVarsH fuel h) cs l hl
        (fun c hcm v hv y hy => ih (hc c hcm) hv y hy) x hx

theorem optList_forall {P : List Nat → Prop} (f : Nat → Option (List Nat)) :
    ∀ (cs : List Nat) (vs : List (List Nat)), optList f cs = some vs →
      (∀ c ∈ cs, ∀ l, f c = some l → P l) → ∀ l ∈ vs, P l := by
  intro cs
  induction cs with
  | nil =>
    intro vs h _ l hl
    simp only [optList] at h
    injection h with h2
    rw [← h2] at hl
    simp at hl
  | cons c cs ih =>
    intro vs h hf l hl
    cases hc : f c with
    | none => simp [optList, hc] at h
    | some v =>
      cases hrest : optList f cs with
      | none => simp [optList, hc, hrest] at h
      | some ws =>
        simp only [optList, hc, hrest] at h
        injection h with h2
        rw [← h2] at hl
        rcases List.mem_cons.mp hl with h3 | h3
        · rw [h3]; exact hf c (by simp) v hc
        · exact ih ws hrest (fun c2 hc2 => hf c2 (by simp [hc2])) l h3

theorem recsSetH_lookup :
    ∀ (rs : List (Nat × Nat)) (rid t r u : Nat),
      (rs.map fun p => if p.1 = rid then (rid, t) else p).lookup r =
        some u →
      u = t ∨ rs.lookup r = some u := by
  intro rs
  induction rs with
  | nil => intro rid t r u h; simp at h
  | cons p ps ih =>
    intro rid t r u h
    rcases p with ⟨k1, v1⟩
    by_cases hk : k1 = rid
    · subst hk
      simp only [List.map_cons, if_pos rfl] at h
      cases hbr : (r == k1) with
      | true =>
        simp only [List.lookup, hbr] at h
        injection h with h2
        exact Or.inl h2.symm
      | false =>
        simp only [List.lookup, hbr] at h
        rcases ih k1 t r u h with h2 | h2
        · exact Or.inl h2
        · right
          simp only [List.lookup, hbr]
          exact h2
    · simp only [List.map_cons, if_neg hk] at h
      cases hbr : (r == k1) with
      | true =>
        simp only [List.lookup, hbr] at h ⊢
        exact Or.inr h
      | false =>
        simp only [List.lookup, hbr] at h ⊢
        exact ih rid t r u h

theorem getOrCreateH_recs :
    ∀ (s : USH) (x : String) (xid r u : Nat),
      (getOrCreateH s x xid).2.recs.lookup r = some u →
      s.recs.lookup r = some u ∨ u = xid := by
  intro s x xid r u h
  cases ha : alookup s.assign x with
  | some rid =>
    simp only [getOrCreateH, ha] at h
    exact Or.inl h
  | none =>
    simp only [getOrCreateH, ha] at h
    rcases lookup_append_some _ _ _ _ h with h2 | h2
    · exact Or.inl h2
    · cases hbr : (r == s.next) with
      | true =>
        simp only [List.lookup, hbr] at h2
        injection h2 with h3
        exact Or.inr h3.symm
      | false => simp [List.lookup, hbr] at h2

theorem USHHigh_getOrCreate {n : Nat} {h : Heap} {s : USH} {x : String}
    {xid : Nat} (hu : USHHigh n h s) (hx : HighTree n h xid) :
    USHHigh n h (getOrCreateH s x xid).2 := by
  intro rid uid hl
  rcases getOrCreateH_recs s x xid rid uid hl with h2 | h2
  · exact hu _ _ h2
  · rw [h2]; exact hx

theorem USHHigh_recsSet {n : Nat} {h : Heap} {s : USH} {rid t : Nat}
    (hu : USHHigh n h s) (ht : HighTree n h t) :
    USHHigh n h (recsSetH s rid t) := by
  intro r u hl
  rcases recsSetH_lookup s.recs rid t r u hl with h2 | h2
  · rw [h2]; exact ht
  · exact hu _ _ h2

theorem USHHigh_updateVarUnifiers {n : Nat} {h : Heap} {s : USH}
    {h2 : Heap} {nm : String} {uid : Nat} (hu : USHHigh n h s) :
    USHHigh n h (updateVarUnifiersH s h2 nm uid) :=
  fun rid u hl => hu rid u hl

theorem reassignVarSchemeH_nodes (h : Heap) (v t : Nat) :
    (reassignVarSchemeH h v t).nodes = h.nodes := by
  unfold reassignVarSchemeH
  cases hget h.scheme v <;> rfl

theorem reassignVarSchemeH_next (h : Heap) (v t : Nat) :
    (reassignVarSchemeH h v t).next = h.next := by
  unfold reassignVarSchemeH
  cases hget h.scheme v <;> rfl

theorem reassignVarSchemeH_scheme (h : Heap) (v t : Nat) :
    (reassignVarSchemeH h v t).scheme = hset h.scheme v t := by
  unfold reassignVarSchemeH
  cases hget h.scheme v <;> rfl

theorem StepOK_scheme_decls {n : Nat} {h h2 : Heap}
    (hnodes : h2.nodes = h.nodes) (hnext : h2.next = h.next)
    (hscheme : ∀ k, k < n → hget h2.scheme k = hget h.scheme k)
    (hdecls : ∀ k, k < n → hget h2.decls k = hget h.decls k)
    (hsch : SchemeHigh n h2) (hg : GoodH n h) : StepOK n h h2 := by
  obtain ⟨hn, hb, hs⟩ := hg
  refine ⟨⟨?_, hscheme, hdecls, ?_, ?_⟩, ?_, ?_, hsch⟩
  · intro k _; rw [hnodes]
  · intro k v hv; rw [hnodes]; exact hv
  · rw [hnext]
  · rw [hnext]; exact hn
  · intro p hp
    rw [hnext]
    exact hb p (hnodes ▸ hp)

theorem reassignVarSchemeH_decls_low {n : Nat} (h : Heap) (v t : Nat)
    (hv : n ≤ v) (ht : n ≤ t) (hsch : SchemeHigh n h) :
    ∀ k, k < n →
      hget (reassignVarSchemeH h v t).decls k = hget h.decls k := by
  intro k hk
  unfold reassignVarSchemeH
  cases hsv : hget h.scheme v with
  | none =>
    show hget (hset h.decls t _) k = hget h.decls k
    exact hget_hset_ne _ _ _ _ (by omega)
  | some sOld =>
    have hso : n ≤ sOld := hsch v sOld hsv hv
    show hget (hset (hset h.decls sOld _) t _) k = hget h.decls k
    rw [hget_hset_ne _ _ _ _ (by omega), hget_hset_ne _ _ _ _ (by omega)]

theorem reassignVarSchemeH_schemeHigh {n : Nat} (h : Heap) (v t : Nat)
    (ht : n ≤ t) (hsch : SchemeHigh n h) :
    SchemeHigh n (reassignVarSchemeH h v t) := by
  intro v2 s2 hl hv2
  rw [reassignVarSchemeH_scheme] at hl
  by_cases hvv : v2 = v
  · rw [hvv, hget_hset_eq] at hl
    injection hl with h2
    omega
  · rw [hget_hset_ne _ _ _ _ hvv] at hl
    exact hsch v2 s2 hl hv2

theorem reassignVarSchemeH_step {n : Nat} {h : Heap} {v t : Nat}
    (hv : n ≤ v) (ht : n ≤ t) (hg : GoodH n h) :
    StepOK n h (reassignVarSchemeH h v t) :=
  StepOK_scheme_decls (reassignVarSchemeH_nodes h v t)
    (reassignVarSchemeH_next h v t)
    (fun k hk => by
      rw [reassignVarSchemeH_scheme]
      exact hget_hset_ne _ _ _ _ (by omega))
    (reassignVarSchemeH_decls_low h v t hv ht hg.2.2)
    (reassignVarSchemeH_schemeHigh h v t ht hg.2.2)
    hg

theorem foldl_reassign_nodes (t : Nat) :
    ∀ (vs : List Nat) (h : Heap),
      (vs.foldl (fun hh v => reassignVarSchemeH hh v t) h).nodes =
        h.nodes := by
  intro vs
  induction vs with
  | nil => intro h; rfl
  | cons v vs ih =>
    intro h
    rw [List.foldl_cons, ih, reassignVarSchemeH_nodes]

theorem foldl_reassign_next (t : Nat) :
    ∀ (vs : List Nat) (h : Heap),
      (vs.foldl (fun hh v => reassignVarSchemeH hh v t) h).next =
        h.next := by
  intro vs
  induction vs with
  | nil => intro h; rfl
  | cons v vs ih =>
    intro h
    rw [List.foldl_cons, ih, reassignVarSchemeH_next]

theorem foldl_reassign_step {n t : Nat} (ht : n ≤ t) :
    ∀ (vs : List Nat) (h : Heap), (∀ v ∈ vs, n ≤ v) → GoodH n h →
      StepOK n h (vs.foldl (fun hh v => reassignVarSchemeH hh v t) h) := by
  intro vs
  induction vs with
  | nil => intro h _ hg; exact StepOK_refl hg
  | cons v vs ih =>
    intro h hvs hg
    rw [List.foldl_cons]
    have h1 := reassignVarSchemeH_step (hvs v (by simp)) ht hg
    exact StepOK_trans h1 (ih _ (fun w hw => hvs w (by simp [hw])) h1.2)

theorem reassignAllH_nodes (h : Heap) (allIds : List Nat) (nm : String)
    (t : Nat) : (reassignAllH h allIds nm t).nodes = h.nodes :=
  foldl_reassign_nodes t _ h

theorem reassignAllH_next (h : Heap) (allIds : List Nat) (nm : String)
    (t : Nat) : (reassignAllH h allIds nm t).next = h.next :=
  foldl_reassign_next t _ h

theorem reassignAllH_step {n : Nat} {h : Heap} {allIds : List Nat}
    {nm : String} {t : Nat} (hids : ∀ v ∈ allIds, n ≤ v) (ht : n ≤ t)
    (hg : GoodH n h) : StepOK n h (reassignAllH h allIds nm t) :=
  foldl_reassign_step ht _ h
    (fun v hv => hids v (List.mem_of_mem_filter hv)) hg

theorem foldl_reassignAll_nodes (allIds : List Nat) (t : Nat) :
    ∀ (sc : List String) (h : Heap),
      (sc.foldl (fun hh nm => reassignAllH hh allIds nm t) h).nodes =
        h.nodes := by
  intro sc
  induction sc with
  | nil => intro h; rfl
  | cons nm sc ih =>
    intro h
    rw [List.foldl_cons, ih, reassignAllH_nodes]

theorem foldl_reassignAll_next (allIds : List Nat) (t : Nat) :
    ∀ (sc : List String) (h : Heap),
      (sc.foldl (fun hh nm => reassignAllH hh allIds nm t) h).next =
        h.next := by
  intro sc
  induction sc with
  | nil => intro h; rfl
  | cons nm sc ih =>
    intro h
    rw [List.foldl_cons, ih, reassignAllH_next]

theorem foldl_reassignAll_step {n : Nat} {allIds : List Nat} {t : Nat}
    (hids : ∀ v ∈ allIds, n ≤ v) (ht : n ≤ t) :
    ∀ (sc : List String) (h : Heap), GoodH n h →
      StepOK n h (sc.foldl (fun hh nm => reassignAllH hh allIds nm t) h) := by
  intro sc
  induction sc with
  | nil => intro h hg; exact StepOK_refl hg
  | cons nm sc ih =>
    intro h hg
    rw [List.foldl_cons]
    have h1 := @reassignAllH_step n h allIds nm t hids ht hg
    exact StepOK_trans h1 (ih _ h1.2)


theorem GPost_trans_step {n : Nat} {h h1 : Heap}
    (r : (Except Err Nat) × Heap) (hs : StepOK n h h1)
    (hp : GPost n h1 r) : GPost n h r :=
  ⟨StepOK_trans hs hp.1, hp.2⟩

theorem mkArrayCoreH_step {n : Nat} {h : Heap} {cs : List Nat}
    {nds : List HNode} {tvls : List (List Nat)} (hg : GoodH n h)
    (hids : ∀ v ∈ tvls.join, n ≤ v) :
    StepOK n h (mkArrayCoreH h cs nds tvls).2 ∧
    hget (mkArrayCoreH h cs nds tvls).2.nodes h.next =
      some (.hArr cs) := by
  constructor
  · exact StepOK_trans (allocNode_step _ hg)
      (foldl_reassignAll_step hids hg.1 _ _ (allocNode_step _ hg).2)
  · show hget ((schedGoH _ _ 0).foldl _ (allocNode h (.hArr cs)).2).nodes
      h.next = _
    rw [foldl_reassignAll_nodes]
    exact allocNode_nodes_self h _

theorem mkArrayCoreH_high {n : Nat} {h : Heap} {cs : List Nat}
    {nds : List HNode} {tvls : List (List Nat)} (hg : GoodH n h)
    (hids : ∀ v ∈ tvls.join, n ≤ v) (hcs : ∀ c ∈ cs, HighTree n h c) :
    HighTree n (mkArrayCoreH h cs nds tvls).2 h.next := by
  obtain ⟨hstep, hnode⟩ := mkArrayCoreH_step hg hids
  exact HighTree.arr h.next cs hg.1 hnode
    (fun c hc => HighTree_mono (hcs c hc) hstep.1.2.2.2.1)

theorem newTypeArrayH_gpost {n fuel : Nat} {h : Heap} {cs : List Nat}
    (hg : GoodH n h) (hcs : ∀ c ∈ cs, HighTree n h c) :
    GPost n h (newTypeArrayH fuel h cs) := by
  unfold newTypeArrayH
  cases hnn : optNodes h cs with
  | none => exact ⟨StepOK_refl hg, fun v hv => nomatch hv⟩
  | some nds =>
    cases htv : optList (typeVarsH fuel h) cs with
    | none => exact ⟨StepOK_refl hg, fun v hv => nomatch hv⟩
    | some tvls =>
      have hids : ∀ v ∈ tvls.join, n ≤ v := by
        intro v hv
        rcases List.mem_join.mp hv with ⟨l, hl, hvl⟩
        exact optList_forall (typeVarsH fuel h) cs tvls htv
          (fun c hc l2 hl2 => typeVarsH_high fuel (hcs c hc) hl2) l hl v hvl
      obtain ⟨hstep, _⟩ :=
        @mkArrayCoreH_step n h cs nds tvls hg hids
      have hhigh := @mkArrayCoreH_high n h cs nds tvls hg hids hcs
      show GPost n h
        (if (((hget (mkArrayCoreH h cs nds tvls).2.decls
              (mkArrayCoreH h cs nds tvls).1).getD []).all
            (fun v => (tvls.join).contains v)) = true then
          (.ok (mkArrayCoreH h cs nds tvls).1,
            (mkArrayCoreH h cs nds tvls).2)
        else
          (.error (.invalidType "Internal error: type scheme references a variable that is not marked as referenced by the type variable"),
            (mkArrayCoreH h cs nds tvls).2))
      by_cases hval : (((hget (mkArrayCoreH h cs nds tvls).2.decls
          (mkArrayCoreH h cs nds tvls).1).getD []).all
          (fun v => (tvls.join).contains v)) = true
      · rw [if_pos hval]
        refine ⟨hstep, ?_⟩
        intro v hv
        injection hv with h2
        rw [← h2]
        exact hhigh
      · rw [if_neg hval]
        exact ⟨hstep, fun v hv => nomatch hv⟩

theorem recursiveTypeH_gpost {n fuel : Nat} {h : Heap} (i : Nat)
    (hg : GoodH n h) : GPost n h (recursiveTypeH fuel h i) := by
  have s1 := allocNode_step (h := h) (.hConst "rec") hg
  have s2 := allocNode_step (.hConst (Nat.repr i)) s1.2
  have s12 := StepOK_trans s1 s2
  refine GPost_trans_step _ s12 (newTypeArrayH_gpost s12.2 ?_)
  intro c hc
  rcases List.mem_cons.mp hc with h1 | h1
  · rw [h1]
    exact HighTree.const _ "rec" hg.1
      (s2.1.2.2.2.1 _ _ (allocNode_nodes_self h _))
  · simp only [List.mem_singleton] at h1
    rw [h1]
    exact HighTree.const _ (Nat.repr i)
      (show n ≤ (allocNode h (.hConst "rec")).2.next from
        Nat.le_succ_of_le hg.1)
      (allocNode_nodes_self _ _)

theorem mapStateH_gpost_all {n : Nat}
    (f : Heap → Nat → (Except Err Nat) × Heap) (I : Heap → Prop)
    (hImono : ∀ h h2, I h → StepOK n h h2 → I h2)
    (hf : ∀ h c, GoodH n h → I h → GPost n h (f h c)) :
    ∀ (cs : List Nat) (h : Heap), GoodH n h → I h →
      StepOK n h (mapStateH f h cs).2 ∧ I (mapStateH f h cs).2 ∧
      ∀ rs, (mapStateH f h cs).1 = .ok rs →
        ∀ r ∈ rs, HighTree n (mapStateH f h cs).2 r := by
  intro cs
  induction cs with
  | nil =>
    intro h hg hI
    refine ⟨StepOK_refl hg, hI, ?_⟩
    intro rs hrs r hr
    simp only [mapStateH] at hrs
    injection hrs with h2
    rw [← h2] at hr
    simp at hr
  | cons c cs ih =>
    intro h hg hI
    rcases hfc : f h c with ⟨r1, h1⟩
    have hp := hf h c hg hI
    rw [hfc] at hp
    cases r1 with
    | error e =>
      rw [show mapStateH f h (c :: cs) = (.error e, h1) from by
        simp [mapStateH, hfc]]
      exact ⟨hp.1, hImono _ _ hI hp.1, fun rs hrs => nomatch hrs⟩
    | ok r =>
      have hIr : I h1 := hImono _ _ hI hp.1
      have hhr : HighTree n h1 r := hp.2 r rfl
      rcases hrest : mapStateH f h1 cs with ⟨r2, h2⟩
      have hih := ih h1 hp.1.2 hIr
      rw [hrest] at hih
      cases r2 with
      | error e =>
        rw [show mapStateH f h (c :: cs) = (.error e, h2) from by
          simp [mapStateH, hfc, hrest]]
        exact ⟨StepOK_trans hp.1 hih.1, hih.2.1,
          fun rs hrs => nomatch hrs⟩
      | ok rs0 =>
        rw [show mapStateH f h (c :: cs) = (.ok (r :: rs0), h2) from by
          simp [mapStateH, hfc, hrest]]
        refine ⟨StepOK_trans hp.1 hih.1, hih.2.1, ?_⟩
        intro rs hrs r3 hr3
        injection hrs with h4
        rw [← h4] at hr3
        rcases List.mem_cons.mp hr3 with h5 | h5
        · rw [h5]
          exact HighTree_mono hhr hih.1.1.2.2.2.1
        · exact hih.2.2 rs0 rfl r3 h5

theorem mapStateH_gpost_high {n : Nat}
    (f : Heap → Nat → (Except Err Nat) × Heap) (I : Heap → Prop)
    (hImono : ∀ h h2, I h → StepOK n h h2 → I h2)
    (hf : ∀ h c, GoodH n h → I h → HighTree n h c → GPost n h (f h c)) :
    ∀ (cs : List Nat) (h : Heap), GoodH n h → I h →
      (∀ c ∈ cs, HighTree n h c) →
      StepOK n h (mapStateH f h cs).2 ∧ I (mapStateH f h cs).2 ∧
      ∀ rs, (mapStateH f h cs).1 = .ok rs →
        ∀ r ∈ rs, HighTree n (mapStateH f h cs).2 r := by
  intro cs
  induction cs with
  | nil =>
    intro h hg hI _
    refine ⟨StepOK_refl hg, hI, ?_⟩
    intro rs hrs r hr
    simp only [mapStateH] at hrs
    injection hrs with h2
    rw [← h2] at hr
    simp at hr
  | cons c cs ih =>
    intro h hg hI hcs
    rcases hfc : f h c with ⟨r1, h1⟩
    have hp := hf h c hg hI (hcs c (by simp))
    rw [hfc] at hp
    cases r1 with
    | error e =>
      rw [show mapStateH f h (c :: cs) = (.error e, h1) from by
        simp [mapStateH, hfc]]
      exact ⟨hp.1, hImono _ _ hI hp.1, fun rs hrs => nomatch hrs⟩
    | ok r =>
      have hIr : I h1 := hImono _ _ hI hp.1
      have hhr : HighTree n h1 r := hp.2 r rfl
      have hcs2 : ∀ c2 ∈ cs, HighTree n h1 c2 := fun c2 hc2 =>
        HighTree_mono (hcs c2 (List.mem_cons_of_mem _ hc2))
          hp.1.1.2.2.2.1
      rcases hrest : mapStateH f h1 cs with ⟨r2, h2⟩
      have hih := ih h1 hp.1.2 hIr hcs2
      rw [hrest] at hih
      cases r2 with
      | error e =>
        rw [show mapStateH f h (c :: cs) = (.error e, h2) from by
          simp [mapStateH, hfc, hrest]]
        exact ⟨StepOK_trans hp.1 hih.1, hih.2.1,
          fun rs hrs => nomatch hrs⟩
      | ok rs0 =>
        rw [show mapStateH f h (c :: cs) = (.ok (r :: rs0), h2) from by
          simp [mapStateH, hfc, hrest]]
        refine ⟨StepOK_trans hp.1 hih.1, hih.2.1, ?_⟩
        intro rs hrs r3 hr3
        injection hrs with h4
        rw [← h4] at hr3
        rcases List.mem_cons.mp hr3 with h5 | h5
        · rw [h5]
          exact HighTree_mono hhr hih.1.1.2.2.2.1
        · exact hih.2.2 rs0 rfl r3 h5

theorem cloneH_gpost :
    ∀ (fuel : Nat) {n : Nat} {h : Heap} (id : Nat), GoodH n h →
      GPost n h (cloneH fuel h id) := by
  intro fuel
  induction fuel with
  | zero => intro n h id hg; exact ⟨StepOK_refl hg, fun v hv => nomatch hv⟩
  | succ fuel ih =>
    intro n h id hg
    cases hn : hget h.nodes id with
    | none =>
      rw [show cloneH (fuel + 1) h id = (.error .missing, h) from by
        simp [cloneH, hn]]
      exact ⟨StepOK_refl hg, fun v hv => nomatch hv⟩
    | some nd =>
      cases nd with
      | hVar s =>
        rw [show cloneH (fuel + 1) h id =
            (.ok (allocNode h (.hVar s)).1, (allocNode h (.hVar s)).2)
          from by simp [cloneH, hn]]
        refine ⟨allocNode_step _ hg, ?_⟩
        intro v hv
        injection hv with h2
        rw [← h2]
        exact HighTree.var _ s hg.1 (allocNode_nodes_self h _)
      | hConst s =>
        rw [show cloneH (fuel + 1) h id =
            (.ok (allocNode h (.hConst s)).1, (allocNode h (.hConst s)).2)
          from by simp [cloneH, hn]]
        refine ⟨allocNode_step _ hg, ?_⟩
        intro v hv
        injection hv with h2
        rw [← h2]
        exact HighTree.const _ s hg.1 (allocNode_nodes_self h _)
      | hArr cs =>
        rcases hm : mapStateH (fun h2 c => cloneH fuel h2 c) h cs
          with ⟨r1, h1⟩
        have hmm := mapStateH_gpost_all (fun h2 c => cloneH fuel h2 c)
          (fun _ => True) (fun _ _ _ _ => trivial)
          (fun h2 c hg2 _ => ih c hg2) cs h hg trivial
        rw [hm] at hmm
        cases r1 with
        | error e =>
          rw [show cloneH (fuel + 1) h id = (.error e, h1) from by
            simp [cloneH, hn, hm]]
          exact ⟨hmm.1, fun v hv => nomatch hv⟩
        | ok rs =>
          rw [show cloneH (fuel + 1) h id = newTypeArrayH fuel h1 rs
            from by simp [cloneH, hn, hm]]
          exact GPost_trans_step _ hmm.1
            (newTypeArrayH_gpost hmm.1.2 (hmm.2.2 rs rfl))


theorem UPost_same {n : Nat} {h : Heap} {s : USH} {v : Except Err Nat}
    (hg : GoodH n h) (hu : USHHigh n h s)
    (hv : ∀ r, v = Except.ok r → HighTree n h r) : UPost n h (v, h, s) :=
  ⟨StepOK_refl hg, hu, hv⟩

theorem chooseBestWithH_upost {n : Nat}
    (recur : Heap → USH → Nat → Nat → Nat → (Except Err Nat) × Heap × USH)
    (hrec : ∀ h s a b d, GoodH n h → USHHigh n h s → HighTree n h a →
      HighTree n h b → UPost n h (recur h s a b d))
    (h : Heap) (s : USH) (t1 t2 d : Nat) (hg : GoodH n h)
    (hu : USHHigh n h s) (h1 : HighTree n h t1) (h2 : HighTree n h t2) :
    UPost n h (chooseBestWithH recur h s t1 t2 d) := by
  unfold chooseBestWithH
  cases hn1 : hget h.nodes t1 with
  | none => exact UPost_same hg hu (fun r hr => nomatch hr)
  | some nd1 =>
    cases hn2 : hget h.nodes t2 with
    | none =>
      cases nd1 <;> exact UPost_same hg hu (fun r hr => nomatch hr)
    | some nd2 =>
      cases nd1 with
      | hVar a1 =>
        cases nd2 with
        | hVar a2 =>
          exact UPost_same hg hu (fun r hr => by
            injection hr with h3
            rw [← h3]; exact h1)
        | hConst c2 =>
          exact UPost_same hg hu (fun r hr => by
            injection hr with h3
            rw [← h3]; exact h2)
        | hArr l2 =>
          exact UPost_same hg hu (fun r hr => by
            injection hr with h3
            rw [← h3]; exact h2)
      | hConst c1 =>
        cases nd2 with
        | hVar a2 =>
          exact UPost_same hg hu (fun r hr => by
            injection hr with h3
            rw [← h3]; exact h1)
        | hConst c2 => exact hrec h s t1 t2 (d + 1) hg hu h1 h2
        | hArr l2 => exact hrec h s t1 t2 (d + 1) hg hu h1 h2
      | hArr l1 =>
        cases nd2 with
        | hVar a2 =>
          exact UPost_same hg hu (fun r hr => by
            injection hr with h3
            rw [← h3]; exact h1)
        | hConst c2 => exact hrec h s t1 t2 (d + 1) hg hu h1 h2
        | hArr l2 => exact hrec h s t1 t2 (d + 1) hg hu h1 h2

theorem updateUnifierH_upost {n : Nat}
    (recur : Heap → USH → Nat → Nat → Nat → (Except Err Nat) × Heap × USH)
    (hrec : ∀ h s a b d, GoodH n h → USHHigh n h s → HighTree n h a →
      HighTree n h b → UPost n h (recur h s a b d))
    (h : Heap) (s : USH) (a : String) (aId t d : Nat) (hg : GoodH n h)
    (hu : USHHigh n h s) (hA : HighTree n h aId) (hT : HighTree n h t) :
    UPost n h (updateUnifierH recur h s a aId t d) := by
  have hu1 : USHHigh n h (getOrCreateH s a aId).2 :=
    USHHigh_getOrCreate hu hA
  unfold updateUnifierH
  split
  · exact UPost_same hg hu1 (fun r hr => nomatch hr)
  · rename_i cur hl
    have hcur : HighTree n h cur := hu1 _ _ hl
    have hpc := chooseBestWithH_upost recur hrec h
      (getOrCreateH s a aId).2 cur t d hg hu1 hcur hT
    split
    · rename_i e h2 s2 hcb
      rw [hcb] at hpc
      exact ⟨hpc.1, hpc.2.1, fun r hr => nomatch hr⟩
    · rename_i best h2 s2 hcb
      rw [hcb] at hpc
      have hbest : HighTree n h2 best := hpc.2.2 best rfl
      have hT2 : HighTree n h2 t := HighTree_mono hT hpc.1.1.2.2.2.1
      refine ⟨hpc.1, ?_, ?_⟩
      · have h3 : USHHigh n h2
            (recsSetH s2 (getOrCreateH s a aId).1 best) :=
          USHHigh_recsSet hpc.2.1 hbest
        have h4 : USHHigh n h2
            (updateVarUnifiersH
              (recsSetH s2 (getOrCreateH s a aId).1 best) h2 a
              (getOrCreateH s a aId).1) :=
          USHHigh_updateVarUnifiers h3
        split
        · exact USHHigh_updateVarUnifiers (USHHigh_getOrCreate h4 hT2)
        · exact h4
      · intro r hr
        injection hr with h5
        rw [← h5]
        exact hbest

theorem zipWithStateH_upost {n : Nat}
    (f : Heap → USH → Nat → Nat → (Except Err Nat) × Heap × USH)
    (hf : ∀ h s a b, GoodH n h → USHHigh n h s → HighTree n h a →
      HighTree n h b → UPost n h (f h s a b)) :
    ∀ (l1 l2 : List Nat) (h : Heap) (s : USH), GoodH n h →
      USHHigh n h s → (∀ c ∈ l1, HighTree n h c) →
      (∀ c ∈ l2, HighTree n h c) →
      UPostL n h (zipWithStateH f h s l1 l2) := by
  intro l1
  induction l1 with
  | nil =>
    intro l2 h s hg hu _ _
    cases l2 with
    | nil =>
      refine ⟨StepOK_refl hg, hu, ?_⟩
      intro rs hrs x hx
      simp only [zipWithStateH] at hrs
      injection hrs with h2
      rw [← h2] at hx
      simp at hx
    | cons b bs =>
      exact ⟨StepOK_refl hg, hu, fun rs hrs => nomatch hrs⟩
  | cons a as ih =>
    intro l2 h s hg hu hca hcb
    cases l2 with
    | nil => exact ⟨StepOK_refl hg, hu, fun rs hrs => nomatch hrs⟩
    | cons b bs =>
      rcases hfe : f h s a b with ⟨r1, h1, s1⟩
      have hp := hf h s a b hg hu (hca a (by simp)) (hcb b (by simp))
      rw [hfe] at hp
      cases r1 with
      | error e =>
        rw [show zipWithStateH f h s (a :: as) (b :: bs) =
            (.error e, h1, s1) from by simp [zipWithStateH, hfe]]
        exact ⟨hp.1, hp.2.1, fun rs hrs => nomatch hrs⟩
      | ok r =>
        have hhr : HighTree n h1 r := hp.2.2 r rfl
        have hca2 : ∀ c ∈ as, HighTree n h1 c := fun c hc =>
          HighTree_mono (hca c (List.mem_cons_of_mem _ hc))
            hp.1.1.2.2.2.1
        have hcb2 : ∀ c ∈ bs, HighTree n h1 c := fun c hc =>
          HighTree_mono (hcb c (List.mem_cons_of_mem _ hc))
            hp.1.1.2.2.2.1
        rcases hrest : zipWithStateH f h1 s1 as bs with ⟨r2, h2, s2⟩
        have hih := ih bs h1 s1 hp.1.2 hp.2.1 hca2 hcb2
        rw [hrest] at hih
        cases r2 with
        | error e =>
          rw [show zipWithStateH f h s (a :: as) (b :: bs) =
              (.error e, h2, s2) from by
            simp [zipWithStateH, hfe, hrest]]
          exact ⟨StepOK_trans hp.1 hih.1, hih.2.1,
            fun rs hrs => nomatch hrs⟩
        | ok rs0 =>
          rw [show zipWithStateH f h s (a :: as) (b :: bs) =
              (.ok (r :: rs0), h2, s2) from by
            simp [zipWithStateH, hfe, hrest]]
          refine ⟨StepOK_trans hp.1 hih.1, hih.2.1, ?_⟩
          intro rs hrs x hx
          injection hrs with h4
          rw [← h4] at hx
          rcases List.mem_cons.mp hx with h5 | h5
          · rw [h5]
            exact HighTree_mono hhr hih.1.1.2.2.2.1
          · exact hih.2.2 rs0 rfl x h5


theorem HighTree_lookup {n : Nat} {h : Heap} {id : Nat}
    (ht : HighTree n h id) : ∃ nd, hget h.nodes id = some nd := by
  cases ht <;> exact ⟨_, by assumption⟩

theorem unifyTypesH_upost :
    ∀ (fuel n : Nat) (h : Heap) (s : USH) (t1 t2 d : Nat),
      GoodH n h → USHHigh n h s → HighTree n h t1 → HighTree n h t2 →
      UPost n h (unifyTypesH fuel h s t1 t2 d) := by
  intro fuel
  induction fuel with
  | zero =>
    intro n h s t1 t2 d hg hu _ _
    exact ⟨StepOK_refl hg, hu, fun v hv => nomatch hv⟩
  | succ fuel ih =>
    intro n h s t1 t2 d hg hu hT1 hT2
    by_cases heq : t1 = t2
    · rw [show unifyTypesH (fuel + 1) h s t1 t2 d = (.ok t1, h, s) from by
        simp [unifyTypesH, heq]]
      exact ⟨StepOK_refl hg, hu, fun v hv => by
        injection hv with h2
        rw [← h2]; exact hT1⟩
    · have hrec : ∀ h2 s2 a2 b2 d2, GoodH n h2 → USHHigh n h2 s2 →
          HighTree n h2 a2 → HighTree n h2 b2 →
          UPost n h2 (unifyTypesH fuel h2 s2 a2 b2 d2) :=
        fun h2 s2 a2 b2 d2 => ih n h2 s2 a2 b2 d2
      cases hT1 with
      | var i1 v1 hi1 hn1 =>
        obtain ⟨nd2, hn2⟩ := HighTree_lookup hT2
        rw [show unifyTypesH (fuel + 1) h s t1 t2 d =
            updateUnifierH
              (fun h2 s2 u1 u2 dd => unifyTypesH fuel h2 s2 u1 u2 dd)
              h s v1 t1 t2 d from by
          simp [unifyTypesH, heq, hn1, hn2]]
        exact updateUnifierH_upost _ hrec h s v1 t1 t2 d hg hu
          (HighTree.var t1 v1 hi1 hn1) hT2
      | const i1 v1 hi1 hn1 =>
        cases hT2 with
        | var i2 v2 hi2 hn2 =>
          rw [show unifyTypesH (fuel + 1) h s t1 t2 d =
              updateUnifierH
                (fun h2 s2 u1 u2 dd => unifyTypesH fuel h2 s2 u1 u2 dd)
                h s v2 t2 t1 d from by
            simp [unifyTypesH, heq, hn1, hn2]]
          exact updateUnifierH_upost _ hrec h s v2 t2 t1 d hg hu
            (HighTree.var t2 v2 hi2 hn2) (HighTree.const t1 v1 hi1 hn1)
        | const i2 v2 hi2 hn2 =>
          by_cases hab : v1 = v2
          · rw [show unifyTypesH (fuel + 1) h s t1 t2 d = (.ok t1, h, s)
              from by simp [unifyTypesH, heq, hn1, hn2, hab]]
            exact ⟨StepOK_refl hg, hu, fun v hv => by
              injection hv with h2
              rw [← h2]; exact HighTree.const t1 v1 hi1 hn1⟩
          · rw [show unifyTypesH (fuel + 1) h s t1 t2 d =
                (.error (.cantUnifyConsts v1 v2), h, s) from by
              simp [unifyTypesH, heq, hn1, hn2, hab]]
            exact ⟨StepOK_refl hg, hu, fun v hv => nomatch hv⟩
        | arr i2 cs2 hi2 hn2 hc2 =>
          rw [show unifyTypesH (fuel + 1) h s t1 t2 d =
              (.error (.cantUnifyMixed (.tConst v1) (.tConst "array")),
                h, s) from by simp [unifyTypesH, heq, hn1, hn2]]
          exact ⟨StepOK_refl hg, hu, fun v hv => nomatch hv⟩
      | arr i1 cs1 hi1 hn1 hc1 =>
        cases hT2 with
        | var i2 v2 hi2 hn2 =>
          rw [show unifyTypesH (fuel + 1) h s t1 t2 d =
              updateUnifierH
                (fun h2 s2 u1 u2 dd => unifyTypesH fuel h2 s2 u1 u2 dd)
                h s v2 t2 t1 d from by
            simp [unifyTypesH, heq, hn1, hn2]]
          exact updateUnifierH_upost _ hrec h s v2 t2 t1 d hg hu
            (HighTree.var t2 v2 hi2 hn2)
            (HighTree.arr t1 cs1 hi1 hn1 hc1)
        | const i2 v2 hi2 hn2 =>
          rw [show unifyTypesH (fuel + 1) h s t1 t2 d =
              (.error (.cantUnifyMixed (.tConst "array") (.tConst v2)),
                h, s) from by simp [unifyTypesH, heq, hn1, hn2]]
          exact ⟨StepOK_refl hg, hu, fun v hv => nomatch hv⟩
        | arr i2 cs2 hi2 hn2 hc2 =>
          by_cases hlen : cs1.length = cs2.length
          · rcases hz : zipWithStateH
                (fun h2 s2 u1 u2 => unifyTypesH fuel h2 s2 u1 u2 (d + 1))
                h s cs1 cs2 with ⟨rz, hz2, sz⟩
            have hzz := zipWithStateH_upost
              (fun h2 s2 u1 u2 => unifyTypesH fuel h2 s2 u1 u2 (d + 1))
              (fun h2 s2 a2 b2 hg2 hu2 ha2 hb2 =>
                hrec h2 s2 a2 b2 (d + 1) hg2 hu2 ha2 hb2)
              cs1 cs2 h s hg hu hc1 hc2
            rw [hz] at hzz
            cases rz with
            | error e =>
              rw [show unifyTypesH (fuel + 1) h s t1 t2 d =
                  (.error e, hz2, sz) from by
                simp [unifyTypesH, heq, hn1, hn2, hlen, hz]]
              exact ⟨hzz.1, hzz.2.1, fun v hv => nomatch hv⟩
            | ok rs =>
              rcases hna : newTypeArrayH fuel hz2 rs with ⟨rn, h3⟩
              have hnp : GPost n hz2 (newTypeArrayH fuel hz2 rs) :=
                newTypeArrayH_gpost hzz.1.2 (hzz.2.2 rs rfl)
              rw [hna] at hnp
              cases rn with
              | ok r =>
                rw [show unifyTypesH (fuel + 1) h s t1 t2 d =
                    (.ok r, h3, sz) from by
                  simp [unifyTypesH, heq, hn1, hn2, hlen, hz, hna]]
                exact ⟨StepOK_trans hzz.1 hnp.1,
                  USHHigh_mono hzz.2.1 hnp.1.1.2.2.2.1,
                  fun v hv => by
                    injection hv with h4
                    rw [← h4]; exact hnp.2 r rfl⟩
              | error e =>
                rw [show unifyTypesH (fuel + 1) h s t1 t2 d =
                    (.error e, h3, sz) from by
                  simp [unifyTypesH, heq, hn1, hn2, hlen, hz, hna]]
                exact ⟨StepOK_trans hzz.1 hnp.1,
                  USHHigh_mono hzz.2.1 hnp.1.1.2.2.2.1,
                  fun v hv => nomatch hv⟩
          · rw [show unifyTypesH (fuel + 1) h s t1 t2 d =
                (.error (.sizeMismatch [] []), h, s) from by
              simp [unifyTypesH, heq, hn1, hn2, hlen]]
            exact ⟨StepOK_refl hg, hu, fun v hv => nomatch hv⟩


theorem getUnifiedTypeH_gpost :
    ∀ (fuel n : Nat) (h : Heap) (s : USH) (e : Nat) (prev : List String),
      GoodH n h → USHHigh n h s → HighTree n h e →
      GPost n h (getUnifiedTypeH fuel h s e prev) := by
  intro fuel
  induction fuel with
  | zero =>
    intro n h s e prev hg _ _
    exact ⟨StepOK_refl hg, fun v hv => nomatch hv⟩
  | succ fuel ih =>
    intro n h s e prev hg hu hT
    cases hT with
    | const i c hi hn =>
      rw [show getUnifiedTypeH (fuel + 1) h s e prev = (.ok e, h) from by
        simp [getUnifiedTypeH, hn]]
      exact ⟨StepOK_refl hg, fun v hv => by
        injection hv with h2
        rw [← h2]; exact HighTree.const e c hi hn⟩
    | var i nm hi hn =>
      cases hfi : firstIdx nm prev with
      | some k =>
        rw [show getUnifiedTypeH (fuel + 1) h s e prev =
            recursiveTypeH fuel h k from by
          simp [getUnifiedTypeH, hn, hfi]]
        exact recursiveTypeH_gpost k hg
      | none =>
        cases ha : alookup s.assign nm with
        | none =>
          rw [show getUnifiedTypeH (fuel + 1) h s e prev = (.ok e, h)
            from by simp [getUnifiedTypeH, hn, hfi, ha]]
          exact ⟨StepOK_refl hg, fun v hv => by
            injection hv with h2
            rw [← h2]; exact HighTree.var e nm hi hn⟩
        | some rid =>
          cases hr : s.recs.lookup rid with
          | none =>
            rw [show getUnifiedTypeH (fuel + 1) h s e prev = (.ok e, h)
              from by simp [getUnifiedTypeH, hn, hfi, ha, hr]]
            exact ⟨StepOK_refl hg, fun v hv => by
              injection hv with h2
              rw [← h2]; exact HighTree.var e nm hi hn⟩
          | some uid =>
            have huid : HighTree n h uid := hu _ _ hr
            cases huid with
            | var j w hj hk =>
              rw [show getUnifiedTypeH (fuel + 1) h s e prev =
                  (.ok uid, h) from by
                simp [getUnifiedTypeH, hn, hfi, ha, hr, hk]]
              exact ⟨StepOK_refl hg, fun v hv => by
                injection hv with h2
                rw [← h2]; exact HighTree.var uid w hj hk⟩
            | const j w hj hk =>
              rw [show getUnifiedTypeH (fuel + 1) h s e prev =
                  (.ok uid, h) from by
                simp [getUnifiedTypeH, hn, hfi, ha, hr, hk]]
              exact ⟨StepOK_refl hg, fun v hv => by
                injection hv with h2
                rw [← h2]; exact HighTree.const uid w hj hk⟩
            | arr j cs hj hk hc =>
              rw [show getUnifiedTypeH (fuel + 1) h s e prev =
                  getUnifiedTypeH fuel h s uid (nm :: prev) from by
                simp [getUnifiedTypeH, hn, hfi, ha, hr, hk]]
              exact ih n h s uid (nm :: prev) hg hu
                (HighTree.arr uid cs hj hk hc)
    | arr i cs hi hn hc =>
      rcases hm : mapStateH (fun h2 c => getUnifiedTypeH fuel h2 s c prev)
        h cs with ⟨r1, h1⟩
      have hmm := mapStateH_gpost_high
        (fun h2 c => getUnifiedTypeH fuel h2 s c prev)
        (fun h2 => USHHigh n h2 s)
        (fun ha2 hb2 hI hstep => USHHigh_mono hI hstep.1.2.2.2.1)
        (fun h2 c hg2 hI2 hc2 => ih n h2 s c prev hg2 hI2 hc2)
        cs h hg hu hc
      rw [hm] at hmm
      cases r1 with
      | error e2 =>
        rw [show getUnifiedTypeH (fuel + 1) h s e prev = (.error e2, h1)
          from by simp [getUnifiedTypeH, hn, hm]]
        exact ⟨hmm.1, fun v hv => nomatch hv⟩
      | ok rs =>
        rw [show getUnifiedTypeH (fuel + 1) h s e prev =
            newTypeArrayH fuel h1 rs from by
          simp [getUnifiedTypeH, hn, hm]]
        exact GPost_trans_step _ hmm.1
          (newTypeArrayH_gpost hmm.1.2 (hmm.2.2 rs rfl))

theorem functionInputH_high {n : Nat} {h : Heap} {t r : Nat}
    (ht : HighTree n h t) (hr : functionInputH h t = .ok r) :
    HighTree n h r := by
  unfold functionInputH at hr
  by_cases hf : isFunctionTypeH h t
  · rw [if_pos hf] at hr
    cases ht with
    | var i s hi hn => simp [hn] at hr
    | const i s hi hn => simp [hn] at hr
    | arr i cs hi hn hc =>
      cases cs with
      | nil => simp [hn] at hr
      | cons c rest =>
        rw [show (match hget h.nodes t with
            | some (.hArr (i :: _)) => Except.ok i
            | _ => Except.error (.invalidType "Expected a function type")
            : Except Err Nat) = .ok c from by simp [hn]] at hr
        injection hr with h2
        rw [← h2]
        exact hc c (by simp)
  · rw [if_neg hf] at hr
    exact absurd hr (by simp)

theorem functionOutputH_high {n : Nat} {h : Heap} {t r : Nat}
    (ht : HighTree n h t) (hr : functionOutputH h t = .ok r) :
    HighTree n h r := by
  unfold functionOutputH at hr
  by_cases hf : isFunctionTypeH h t
  · rw [if_pos hf] at hr
    cases ht with
    | var i s hi hn => simp [hn] at hr
    | const i s hi hn => simp [hn] at hr
    | arr i cs hi hn hc =>
      rcases cs with _ | ⟨a1, _ | ⟨a2, _ | ⟨a3, _ | ⟨a4, rest⟩⟩⟩⟩
      · simp [hn] at hr
      · simp [hn] at hr
      · simp [hn] at hr
      · rw [show (match hget h.nodes t with
            | some (.hArr [_, _, o]) => Except.ok o
            | _ => Except.error (.invalidType "Expected a function type")
            : Except Err Nat) = .ok a3 from by simp [hn]] at hr
        injection hr with h2
        rw [← h2]
        exact hc a3 (by simp)
      · simp [hn] at hr
  · rw [if_neg hf] at hr
    exact absurd hr (by simp)

theorem applyFunctionH_frame :
    ∀ (fuel n : Nat) (h : Heap) (f a : Nat), GoodH n h →
      StepOK n h (applyFunctionH fuel h f a).2 := by
  intro fuel n h f a hg
  have hp1 : GPost n h (cloneH fuel h f) := cloneH_gpost fuel f hg
  unfold applyFunctionH
  split
  · rename_i e h1 hc1
    rw [hc1] at hp1
    exact hp1.1
  · rename_i f1 h1 hc1
    rw [hc1] at hp1
    have hf1 : HighTree n h1 f1 := hp1.2 f1 rfl
    have hp2 : GPost n h1 (cloneH fuel h1 a) := cloneH_gpost fuel a hp1.1.2
    split
    · rename_i e h2 hc2
      rw [hc2] at hp2
      exact StepOK_trans hp1.1 hp2.1
    · rename_i a1 h2 hc2
      rw [hc2] at hp2
      have ha1 : HighTree n h2 a1 := hp2.2 a1 rfl
      have hf1b : HighTree n h2 f1 := HighTree_mono hf1 hp2.1.1.2.2.2.1
      have hs12 := StepOK_trans hp1.1 hp2.1
      split
      · exact hs12
      · rename_i input hin
        split
        · exact hs12
        · rename_i output hout
          have hinH : HighTree n h2 input := functionInputH_high hf1b hin
          have houtH : HighTree n h2 output :=
            functionOutputH_high hf1b hout
          have hpz : UPost n h2 (unifyTypesH fuel h2 emptyUSH input a1 0) :=
            unifyTypesH_upost fuel n h2 emptyUSH input a1 0
              hs12.2 (fun rid uid hl => nomatch hl) hinH ha1
          split
          · rename_i e h3 s0 hz
            rw [hz] at hpz
            exact StepOK_trans hs12 hpz.1
          · rename_i u0 h3 s1 hz
            rw [hz] at hpz
            have houtH3 : HighTree n h3 output :=
              HighTree_mono houtH hpz.1.1.2.2.2.1
            have hpg := getUnifiedTypeH_gpost fuel n h3 s1 output []
              hpz.1.2 hpz.2.1 houtH3
            exact StepOK_trans (StepOK_trans hs12 hpz.1) hpg.1

theorem readList_congr (f g : Nat → Option Ty) :
    ∀ cs, (∀ c ∈ cs, f c = g c) → readList f cs = readList g cs := by
  intro cs
  induction cs with
  | nil => intro _; rfl
  | cons c cs ih =>
    intro hfg
    simp only [readList]
    rw [hfg c (by simp), ih (fun c2 hc2 => hfg c2 (by simp [hc2]))]

theorem readTy_lowEq {n : Nat} {h h2 : Heap}
    (hlow : ∀ k, k < n → hget h2.nodes k = hget h.nodes k) :
    ∀ (fuel : Nat) (id : Nat), LowTree n h id →
      readTy fuel h2 id = readTy fuel h id := by
  intro fuel
  induction fuel with
  | zero => intro id _; rfl
  | succ fuel ih =>
    intro id hl
    cases hl with
    | var i s hi hn =>
      rw [show readTy (fuel + 1) h2 id = some (.tVar s) from by
        simp [readTy, hlow id hi, hn]]
      rw [show readTy (fuel + 1) h id = some (.tVar s) from by
        simp [readTy, hn]]
    | const i s hi hn =>
      rw [show readTy (fuel + 1) h2 id = some (.tConst s) from by
        simp [readTy, hlow id hi, hn]]
      rw [show readTy (fuel + 1) h id = some (.tConst s) from by
        simp [readTy, hn]]
    | arr i cs hi hn hc =>
      have hcl : readList (readTy fuel h2) cs =
          readList (readTy fuel h) cs :=
        readList_congr _ _ cs (fun c hcm => ih c (hc c hcm))
      rw [show readTy (fuel + 1) h2 id =
          (readList (readTy fuel h2) cs).map Ty.tArr from by
        simp [readTy, hlow id hi, hn]]
      rw [show readTy (fuel + 1) h id =
          (readList (readTy fuel h) cs).map Ty.tArr from by
        simp [readTy, hn]]
      rw [hcl]

/-- C8: `applyFunction(fxn, args)` leaves both argument trees unchanged.
Over the heap model (node identities, with the mutable `scheme` and
`typeVarDeclarations` fields explicit), a run of `applyFunctionH` — for
any fuel, whether it returns a result or an error from the internal
unification or anywhere else — leaves every field of every node below
the entry allocation frontier exactly as it was, and in particular the
trees read back from any pre-existing roots (such as `fxn` and `args`)
are identical before and after.  The clones are the reason: every
mutation in the call targets nodes at or above the frontier. -/
theorem c8_applyFunction_frame (fuel : Nat) (h : Heap) (f a : Nat)
    (hn : NodesBound h) (hs : SchemeBound h) :
    (∀ k, k < h.next →
      hget (applyFunctionH fuel h f a).2.nodes k = hget h.nodes k) ∧
    (∀ k, k < h.next →
      hget (applyFunctionH fuel h f a).2.scheme k = hget h.scheme k) ∧
    (∀ k, k < h.next →
      hget (applyFunctionH fuel h f a).2.decls k = hget h.decls k) ∧
    (∀ id fuel2, LowTree h.next h id →
      readTy fuel2 (applyFunctionH fuel h f a).2 id =
        readTy fuel2 h id) := by
  have hg : GoodH h.next h :=
    ⟨Nat.le_refl _, hn,
      fun v s2 hl hv =>
        ((Nat.not_lt.mpr hv) (hs _ (hget_mem _ hl))).elim⟩
  have hstep := applyFunctionH_frame fuel h.next h f a hg
  exact ⟨hstep.1.1, hstep.1.2.1, hstep.1.2.2.1,
    fun id fuel2 hl => readTy_lowEq hstep.1.1 fuel2 id hl⟩

/-- C8, witness: the well-formedness hypotheses hold for the concrete
heap `wHeap` (the function `('a -> 'a)` at node 3, the argument `Num`
at node 4), and the frame conclusion follows for a concrete run. -/
theorem c8_witness :
    (NodesBound wHeap ∧ SchemeBound wHeap) ∧
    ((∀ k, k < wHeap.next →
      hget (applyFunctionH 32 wHeap 3 4).2.nodes k = hget wHeap.nodes k) ∧
    (∀ k, k < wHeap.next →
      hget (applyFunctionH 32 wHeap 3 4).2.scheme k =
        hget wHeap.scheme k) ∧
    (∀ k, k < wHeap.next →
      hget (applyFunctionH 32 wHeap 3 4).2.decls k = hget wHeap.decls k) ∧
    (∀ id fuel2, LowTree wHeap.next wHeap id →
      readTy fuel2 (applyFunctionH 32 wHeap 3 4).2 id =
        readTy fuel2 wHeap id)) :=
  ⟨⟨by unfold NodesBound; decide, by unfold SchemeBound; decide⟩,
    c8_applyFunction_frame 32 wHeap 3 4 (by unfold NodesBound; decide)
      (by unfold SchemeBound; decide)⟩

end TypeInference
